import Mathlib

/-!
Verification of the lot-tracking core of the `lotter` repository.

The Go source is shallowly embedded: `big.Rat` values become `ℚ`,
`time.Time` values become integer timestamps (only `Before`/`After`/`Equal`
comparisons are used by the code under verification), Go strings become
`List Char` where their contents matter, and every `log.Panic`-style
abort is represented by an `Option`/dedicated-constructor failure value.
Go's `Sign()` tests are rendered as the equivalent order comparisons
(`x.Sign() > -1` is `0 ≤ x`, `x.Sign() == -1` is `x < 0`, and so on).
-/

namespace Lotter

/-- Go `Asset` (a currency code such as "BTC"), from the `Amount` file. -/
abbrev Asset := String

/-- Go `Amount`: an asset code paired with an exact rational value
(the Go struct embeds a `*big.Rat`). -/
structure Amount where
  asset : Asset
  rat : ℚ
deriving DecidableEq, Repr

namespace Amount

/-- `Amount.ZeroClone()`: same asset, value zero, independent storage. -/
def ZeroClone (a : Amount) : Amount := ⟨a.asset, 0⟩

/-- `Amount.NegClone()`: independent copy with negated value. -/
def NegClone (a : Amount) : Amount := ⟨a.asset, -a.rat⟩

/-- `Amount.AbsClone()`: independent copy with absolute value. -/
def AbsClone (a : Amount) : Amount := ⟨a.asset, |a.rat|⟩

/-- `Amount.Clone()`: identity copy. -/
def Clone (a : Amount) : Amount := a

/-- `Amount.Compatible(x)`: asset codes match. -/
def Compatible (a b : Amount) : Prop := a.asset = b.asset

instance : ∀ a b : Amount, Decidable (a.Compatible b) := fun a b =>
  inferInstanceAs (Decidable (a.asset = b.asset))

end Amount

/-- Go `Lot` (src/lot.go): one acquisition batch.  `date` is an integer
timestamp standing for the Go `time.Time`; the code only ever compares
dates with `Before`/`After`/`Equal`. -/
structure Lot where
  name : String
  date : Int
  weight : Nat
  inventory : Amount
  startInventory : Amount
  startCost : Amount
  price : ℚ
deriving DecidableEq, Repr

/-- `NewLot` (src/lot.go).  The Go package-level counter `weight` is threaded
explicitly: the argument `w` is the counter before the call and the returned
`Nat` is the counter after.  The `log.Panicf` aborts (non-positive inventory,
negative basis, negative computed price) become `none`. -/
def NewLot (name : String) (date : Int) (inventory basis : Amount) (w : Nat) :
    Option (Lot × Nat) :=
  if inventory.rat ≤ 0 then none            -- inventory.Sign() < 1
  else if basis.rat < 0 then none           -- basis.Sign() < 0
  else
    let price := basis.rat / inventory.rat
    let w' := w + 1
    let l : Lot := ⟨name, date, w', inventory, inventory, basis, price⟩
    if price < 0 then none                  -- this.price.Sign() < 0
    else some (l, w')

/-- `Lot.Sell` (src/lot.go).  Returns the updated lot together with
`(actual, basis)`; `none` models the `log.Panic` aborts (non-negative
delta, asset mismatch, and the two result sanity checks). -/
def Lot.Sell (l : Lot) (delta : Amount) : Option (Lot × Amount × Amount) :=
  if 0 ≤ delta.rat then none                -- delta.Sign() > -1
  else if ¬ delta.Compatible l.inventory then none
  else
    let tmp := l.inventory.rat + delta.rat
    let step : Lot × Amount :=
      if tmp < 0 then                       -- tmp.Sign() == -1
        ({ l with inventory := l.inventory.ZeroClone }, l.inventory)
      else if 0 < tmp then                  -- tmp.Sign() == 1
        ({ l with inventory := ⟨l.inventory.asset, tmp⟩ }, delta.NegClone)
      else                                  -- tmp.Sign() == 0
        ({ l with inventory := l.inventory.ZeroClone }, delta.NegClone)
    let l' := step.1
    let actual := step.2
    let basis : Amount := ⟨l.startCost.asset, -(l.price * actual.rat)⟩
    if actual.rat ≤ 0 then none             -- actual.Sign() < 1
    else if 0 < basis.rat then none         -- basis.Sign() > 0
    else some (l', actual, basis)

/-- Go `order` constants `FIFO`/`LIFO` (src/lot.go). -/
inductive Order
  | fifo
  | lifo
deriving DecidableEq, Repr

/-- `LotQueue.Less(i, j)` (src/lot.go) as a relation between the two lots.
Under FIFO the earliest lot must come last in the slice (equal dates treated
as later, so larger weight sorts earlier); LIFO is the mirror image. -/
def lotLess (ord : Order) (a b : Lot) : Prop :=
  match ord with
  | .fifo => b.date < a.date ∨ (a.date = b.date ∧ b.weight < a.weight)
  | .lifo => a.date < b.date ∨ (a.date = b.date ∧ a.weight < b.weight)

instance : ∀ ord a b, Decidable (lotLess ord a b) := fun ord a b => by
  cases ord <;> · rw [lotLess]; infer_instance

/-- The non-strict order corresponding to `Less`: `a` may precede `b` in a
slice sorted by `sort.Sort`.  `sort.Sort(q)` establishes exactly that the
slice is `List.Sorted (lotLE ord)`. -/
def lotLE (ord : Order) (a b : Lot) : Prop := ¬ lotLess ord b a

instance : ∀ ord a b, Decidable (lotLE ord a b) := fun ord a b =>
  inferInstanceAs (Decidable (¬ lotLess ord b a))

instance (ord : Order) : IsTotal Lot (lotLE ord) where
  total a b := by
    by_cases h : lotLess ord b a
    · right
      intro h2
      cases ord <;> simp only [lotLess] at h h2 <;> omega
    · left
      exact h

instance (ord : Order) : IsTrans Lot (lotLE ord) where
  trans a b c hab hbc := by
    cases ord <;> simp only [lotLE, lotLess] at hab hbc ⊢ <;> omega

/-- Go `LotQueue` (src/lot.go): the slice of lots plus the consumption
policy.  Inventory is sold from the tail of the slice. -/
structure LotQueue where
  lot : List Lot
  order : Order
deriving DecidableEq, Repr

/-- `LotQueue.sanity(delta)` (src/lot.go), as the predicate "does not panic":
delta is nonzero; an empty queue only accepts positive (buy) deltas; a
non-empty queue requires delta's asset to match `lot[0]`'s. -/
def LotQueue.sanityOK (q : LotQueue) (delta : Amount) : Prop :=
  delta.rat ≠ 0 ∧
    match q.lot with
    | [] => 0 < delta.rat
    | l0 :: _ => delta.asset = l0.inventory.asset

instance : ∀ (q : LotQueue) (delta : Amount), Decidable (q.sanityOK delta) :=
  fun q delta => by
    rw [LotQueue.sanityOK]
    rcases q.lot with _ | ⟨l0, rest⟩ <;> · simp only; infer_instance

/-- `LotQueue.Buy(lot)` (src/lot.go): append the lot and re-sort with
`sort.Sort(this)`.  `sort.Sort` guarantees only that the result is a
`Less`-sorted permutation; insertion sort by `lotLE` is such a permutation
(and the unique one when the `(date, weight)` keys are distinct, since
`Less` is then a strict total order).  A failed `sanity` check is `none`. -/
def LotQueue.Buy (q : LotQueue) (l : Lot) : Option LotQueue :=
  if q.sanityOK l.inventory then
    some { q with lot := List.insertionSort (lotLE q.order) (q.lot ++ [l]) }
  else none

/-- One `(lot, inventory, basis)` triple accumulated by `LotQueue.Sell`:
the consumed lot (in its state after the partial sale), the actual amount
consumed, and the (negative) basis consumed. -/
structure SellEvent where
  lot : Lot
  inventory : Amount
  basis : Amount
deriving DecidableEq, Repr

/-- Outcome of `LotQueue.Sell`: normal return (`ok`), the
"failed to sell ..., no remaining inventory" error return
(`insufficient`), or a `log.Panic` abort (`panic`).  The queue state
returned is the state of `this.lot` at the return point. -/
inductive SellResult
  | ok (queue : List Lot) (events : List SellEvent)
  | insufficient (queue : List Lot) (events : List SellEvent)
  | panic
deriving DecidableEq, Repr

/-- The loop of `LotQueue.Sell` (src/lot.go), acting on the queue in pop
order (the head of `lots` is the tail of the Go slice, which is popped
first; a push-back conses onto the front).  `rem` is the still-unconsumed
remainder, `a` the asset carried by `remaining` (a clone of `delta`). -/
def sellLoop (a : Asset) : List Lot → ℚ → SellResult
  | lots, rem =>
    if rem = 0 then .ok lots []
    else
      match lots with
      | [] => .insufficient [] []
      | l :: rest =>
        match l.Sell ⟨a, rem⟩ with
        | none => .panic
        | some (l', sold, soldBasis) =>
          -- loop sanity: sold negative or basis positive panics
          if sold.rat < 0 ∨ 0 < soldBasis.rat then .panic
          else
            let ev : SellEvent := ⟨l', sold, soldBasis⟩
            let rem' := rem + sold.rat
            if 0 ≤ rem' then
              if rem' ≠ 0 then .panic    -- "should never be reached"
              else
                -- append unsold inventory back, loop exits with remaining = 0
                .ok (if 0 < l'.inventory.rat then l' :: rest else rest) [ev]
            else
              match sellLoop a rest rem' with
              | .ok q es => .ok q (ev :: es)
              | .insufficient q es => .insufficient q (ev :: es)
              | .panic => .panic

/-- `LotQueue.Sell(delta)` (src/lot.go): sanity check, then the
consumption loop over the reversed slice (lots are popped from the end). -/
def LotQueue.Sell (q : LotQueue) (delta : Amount) : SellResult :=
  if ¬ q.sanityOK delta then .panic
  else
    match sellLoop delta.asset q.lot.reverse delta.rat with
    | .ok lots es => .ok lots.reverse es
    | .insufficient lots es => .insufficient lots.reverse es
    | .panic => .panic

/-- Total remaining inventory value of a list of lots. -/
def invSum (lots : List Lot) : ℚ := (lots.map fun l => l.inventory.rat).sum

/-- Total of the actual amounts consumed in a list of sell events. -/
def soldSum (events : List SellEvent) : ℚ :=
  (events.map fun e => e.inventory.rat).sum

/-- Well-formedness of a lot inside a queue keyed by asset `a`: positive
remaining inventory, the queue's asset, a non-negative unit price.  All
three hold for lots built by `NewLot`. -/
def WFLot (a : Asset) (l : Lot) : Prop :=
  0 < l.inventory.rat ∧ l.inventory.asset = a ∧ 0 ≤ l.price

instance : ∀ (a : Asset) (l : Lot), Decidable (WFLot a l) := fun a l => by
  rw [WFLot]
  infer_instance

/-- One call against a `LotQueue`: `Buy(lot)` or `Sell(delta)`. -/
inductive Op
  | buy (l : Lot)
  | sell (delta : Amount)

/-- Apply one call to `(queue, total bought, total sold)`; `none` when the
call panics or `Sell` returns its insufficient-inventory error (the claim
quantifies over sequences of `Buy` and successful `Sell` calls). -/
def applyOp (st : LotQueue × ℚ × ℚ) (op : Op) : Option (LotQueue × ℚ × ℚ) :=
  match op with
  | .buy l =>
    match st.1.Buy l with
    | some q' => some (q', st.2.1 + l.inventory.rat, st.2.2)
    | none => none
  | .sell d =>
    match st.1.Sell d with
    | .ok lots es => some (⟨lots, st.1.order⟩, st.2.1, st.2.2 + soldSum es)
    | .insufficient _ _ => none
    | .panic => none

/-- Run a sequence of calls against an initially empty queue, tallying the
original inventory of every bought lot and every actual amount sold. -/
def runOps (ord : Order) (ops : List Op) : Option (LotQueue × ℚ × ℚ) :=
  List.foldlM applyOp (⟨[], ord⟩, 0, 0) ops

/-- Fixture: a lot of 10 ABC bought for 20 USD (unit price 2). -/
def lotA : Lot := ⟨"lotA", 0, 1, ⟨"ABC", 10⟩, ⟨"ABC", 10⟩, ⟨"USD", 20⟩, 2⟩

/-- Fixture: a later lot of 3 ABC bought for 30 USD (unit price 10). -/
def lotB : Lot := ⟨"lotB", 5, 2, ⟨"ABC", 3⟩, ⟨"ABC", 3⟩, ⟨"USD", 30⟩, 10⟩

/-- Fixture: a FIFO queue holding `lotA` only. -/
def qA : LotQueue := ⟨[lotA], .fifo⟩

/-- Fixture: a FIFO queue, slice sorted later-first: `lotB` then `lotA`. -/
def qBA : LotQueue := ⟨[lotB, lotA], .fifo⟩

/-- Fixture: a LIFO queue, slice sorted earlier-first: `lotA` then `lotB`. -/
def qABlifo : LotQueue := ⟨[lotA, lotB], .lifo⟩

/-- Go `Split` (split file): one parsed transaction leg.  `delta`, `price`
and `cost` are nullable `*Amount` pointers, hence `Option Amount`. -/
structure Split where
  account : String
  delta : Option Amount
  price : Option Amount
  cost : Option Amount
  line : String
  nullAmount : Bool
  comment : String
deriving DecidableEq, Repr

/-- `Split.Price()`: lazily derive the unit price as `cost / delta`.
`none` models the `log.Panicf "cannot determine price"` abort (price and
cost both absent), the nil dereference of an absent delta, and
`big.Rat.Quo`'s division-by-zero panic. -/
def Split.Price (s : Split) : Option Amount :=
  match s.price with
  | some p => some p
  | none =>
    match s.cost with
    | none => none
    | some c =>
      match s.delta with
      | none => none
      | some d =>
        if d.rat = 0 then none
        else some ⟨c.asset, c.rat / d.rat⟩

/-- `Split.Cost()`: lazily derive the total cost as `price * delta` (the
asset comes from `price.ZeroClone()`).  `none` models the
`log.Panicf "cannot determine cost"` abort (cost and price both absent)
and the nil dereference of an absent delta. -/
def Split.Cost (s : Split) : Option Amount :=
  match s.cost with
  | some c => some c
  | none =>
    match s.price with
    | none => none
    | some p =>
      match s.delta with
      | none => none
      | some d => some ⟨p.asset, p.rat * d.rat⟩

/-- Fixture for C5: the sell side of a trade, `-3 ABC @ 2 USD`. -/
def splitSellC5 : Split :=
  ⟨"Assets:Crypto", some ⟨"ABC", -3⟩, some ⟨"USD", 2⟩, none,
    "    Assets:Crypto    -3 ABC @ 2 USD", false, ""⟩

/-- Fixture for C5: a split carrying only a total cost, no price or delta. -/
def splitCostOnlyC5 : Split :=
  ⟨"Assets:Crypto", none, none, some ⟨"USD", 5⟩, "", true, ""⟩

/-- Rounding a value to `p` decimal digits, nearest with ties away from
zero: the value denoted by Go's `x.FloatString(p)` (and recovered by
`new(big.Rat).SetString` of it), used wherever `lotMain` tallies "printed"
amounts. -/
def rnd (p : Nat) (q : ℚ) : ℚ :=
  ((if q < 0 then -⌊|q| * 10 ^ p + 1 / 2⌋ else ⌊|q| * 10 ^ p + 1 / 2⌋ : ℤ) : ℚ) / 10 ^ p

/-- Accumulator of the gain tally loop in `lotMain` (part_006): the
long/short inventory buckets (one `Option` since Go allocates both
pointers together on the first disposal), the per-bucket rounded basis
tallies, and the running total gain. -/
structure GainState where
  buckets : Option (Amount × Amount)    -- (longInventory, shortInventory)
  longBasis : ℚ
  shortBasis : ℚ
  totalGain : ℚ
deriving DecidableEq, Repr

/-- The per-event gain tally loop of `lotMain` (part_006, lines 235-279),
with the zero-inventory panic of the preceding output loop folded in.
`longOf` stands for the holding-period classifier
`Elapsed(lot.date, txDate).years > 0` (the `Elapsed` helper lives outside
the sources under verification; the tally is proved for every classifier). -/
def gainLoop (prec : Asset → Nat) (longOf : Lot → Bool) :
    List SellEvent → GainState → Option GainState
  | [], st => some st
  | e :: rest, st =>
    if e.inventory.rat = 0 then none          -- "zero inventory!" panic
    else if 0 < e.inventory.rat then
      -- disposal: classify and tally, allocating buckets on first use
      let b : Amount × Amount :=
        match st.buckets with
        | none => (e.inventory.ZeroClone, e.inventory.ZeroClone)
        | some b => b
      if b.1.asset ≠ e.inventory.asset then none   -- mixed-inventory panic
      else
        let printed := rnd (prec e.basis.asset) e.basis.rat
        let isLong := longOf e.lot
        gainLoop prec longOf rest
          { buckets := some
              (if isLong then ⟨b.1.asset, b.1.rat + e.inventory.rat⟩ else b.1,
               if isLong then b.2 else ⟨b.2.asset, b.2.rat + e.inventory.rat⟩)
            longBasis := if isLong then st.longBasis + printed else st.longBasis
            shortBasis := if isLong then st.shortBasis else st.shortBasis + printed
            totalGain := st.totalGain + printed }
    else
      -- lot creation (negative inventory): only the rounded basis counts
      let printed := rnd (prec e.basis.asset) e.basis.rat
      gainLoop prec longOf rest { st with totalGain := st.totalGain + printed }

/-- The base-currency part of `totalGain`: for a trade, the rounded sum of
all base-denominated split deltas. -/
def baseDeltaGain (prec : Asset → Nat) (base : Asset) (isTrade : Bool)
    (splits : List Split) : ℚ :=
  if isTrade then
    (splits.map fun s =>
      match s.delta with
      | some d => if d.asset = base then rnd (prec base) d.rat else 0
      | none => 0).sum
  else 0

/-- Sum of the rounded basis amounts over all lot events. -/
def printedSum (prec : Asset → Nat) (events : List SellEvent) : ℚ :=
  (events.map fun e => rnd (prec e.basis.asset) e.basis.rat).sum

/-- Total realized gain of a transaction: base-denominated deltas plus all
rounded basis amounts. -/
def totalGainOf (prec : Asset → Nat) (base : Asset) (isTrade : Bool)
    (splits : List Split) (events : List SellEvent) : ℚ :=
  baseDeltaGain prec base isTrade splits + printedSum prec events

/-- Inventory disposed long-term (per the classifier). -/
def longContrib (longOf : Lot → Bool) (events : List SellEvent) : ℚ :=
  (events.map fun e =>
    if 0 < e.inventory.rat ∧ longOf e.lot then e.inventory.rat else 0).sum

/-- Inventory disposed short-term (per the classifier). -/
def shortContrib (longOf : Lot → Bool) (events : List SellEvent) : ℚ :=
  (events.map fun e =>
    if 0 < e.inventory.rat ∧ ¬ longOf e.lot then e.inventory.rat else 0).sum

/-- `lotMain`'s gain apportionment (part_006, lines 281-301): run the tally
loop, then - when disposals were seen - split the total gain between the
short and long buckets pro rata by disposed inventory.  Outer `none`
models a panic (including `big.Rat.Quo`'s division by zero); inner `none`
means no disposal, so no gain posting is emitted. -/
def tallyGains (prec : Asset → Nat) (base : Asset) (isTrade : Bool)
    (longOf : Lot → Bool) (splits : List Split) (events : List SellEvent) :
    Option (Option (ℚ × ℚ)) :=
  match gainLoop prec longOf events
      ⟨none, 0, 0, baseDeltaGain prec base isTrade splits⟩ with
  | none => none
  | some st =>
    match st.buckets with
    | none => some none
    | some (li, si) =>
      let sellInventory := si.rat + li.rat
      if sellInventory = 0 then none
      else
        let shortTermGain := st.totalGain * (si.rat / sellInventory)
        let longTermGain := st.totalGain - shortTermGain
        some (some (shortTermGain, longTermGain))

/-- Fixture for C4: one disposal of 10 ABC releasing 20 USD of basis. -/
def eventC4 : SellEvent := ⟨lotA, ⟨"ABC", 10⟩, ⟨"USD", -20⟩⟩

/-- The per-asset slice of the package-level `lotQueue` map in part_006:
an association list from qualifier to queue (`lotQueue[asset]`). -/
abbrev Ledger := List (String × LotQueue)

/-- `getQueue(asset, qualifier)` restricted to one asset: the stored queue,
or a fresh empty queue with the configured order. -/
def lookupQueue (led : Ledger) (qual : String) (ord : Order) : LotQueue :=
  match led.find? (fun p => p.1 == qual) with
  | some p => p.2
  | none => ⟨[], ord⟩

/-- Writing the (value-copied, then mutated) queue back into the map, as
`lotQueue[asset][qualifier] = queue` does after `Buy`/`Sell`. -/
def storeQueue (led : Ledger) (qual : String) (q : LotQueue) : Ledger :=
  if (led.find? (fun p => p.1 == qual)).isSome then
    led.map fun p => if p.1 == qual then (qual, q) else p
  else led ++ [(qual, q)]

/-- The `sell(qualifier, delta)` helper of part_006, for one asset: refuses
the base asset and empty queues, then delegates to `LotQueue.Sell` and
stores the updated queue.  `none` collapses both the error returns and the
panics (either way `lotMain` aborts the run). -/
def sellWrap (base : Asset) (ord : Order) (led : Ledger) (qual : String)
    (delta : Amount) : Option (List SellEvent × Ledger) :=
  if delta.asset = base then none
  else
    let queue := lookupQueue led qual ord
    if queue.lot.length < 1 then none
    else
      match queue.Sell delta with
      | .ok lots es => some (es, storeQueue led qual ⟨lots, queue.order⟩)
      | .insufficient _ _ => none
      | .panic => none

/-- The `buy(lot, qualifier)` helper of part_006, for one asset. -/
def buyWrap (ord : Order) (led : Ledger) (qual : String) (l : Lot) :
    Option Ledger :=
  match (lookupQueue led qual ord).Buy l with
  | some q' => some (storeQueue led qual q')
  | none => none

/-- The inner loop of `consumeMoves` pass 1 over one `sell`'s results:
record each consumed triple and buy a temporary lot (same date, same
per-unit basis, fresh `NewLot` weight) into the temporary queue. -/
def movePass1Events : List SellEvent →
    LotQueue × Nat × List SellEvent → Option (LotQueue × Nat × List SellEvent)
  | [], st => some st
  | e :: rest, (tq, w, outs) =>
    match NewLot "tmp" e.lot.date e.inventory e.basis.NegClone w with
    | none => none
    | some (tmpLot, w') =>
      match tq.Buy tmpLot with
      | none => none
      | some tq' => movePass1Events rest (tq', w', outs ++ [e])

/-- `consumeMoves` pass 1 (part_006): every qualifier with a negative net
delta sells that amount from its live queue and parks the consumed
inventory in the temporary queue. -/
def movePass1 (base asset : Asset) (ord : Order) :
    List (String × ℚ) → Ledger × LotQueue × Nat × List SellEvent →
    Option (Ledger × LotQueue × Nat × List SellEvent)
  | [], st => some st
  | (qual, d) :: rest, (led, tq, w, outs) =>
    if d = 0 then movePass1 base asset ord rest (led, tq, w, outs)
    else if 0 < d then movePass1 base asset ord rest (led, tq, w, outs)
    else
      match sellWrap base ord led qual ⟨asset, d⟩ with
      | none => none
      | some (es, led') =>
        match movePass1Events es (tq, w, outs) with
        | none => none
        | some (tq', w', outs') =>
          movePass1 base asset ord rest (led', tq', w', outs')

/-- The inner loop of `consumeMoves` pass 2 over one temporary-queue sell:
each consumed portion becomes a new lot in the destination qualifier's
live queue, stamped with the consumed (temporary) lot's date, a per-unit
basis equal to its price, and - after `NewLot` assigned a fresh weight -
the consumed lot's weight copied over it. -/
def movePass2Events (ord : Order) (qual : String) : List SellEvent →
    Ledger × Nat × List SellEvent → Option (Ledger × Nat × List SellEvent)
  | [], st => some st
  | e :: rest, (led, w, outs) =>
    match NewLot ("Lot:" ++ qual) e.lot.date e.inventory e.basis.NegClone w with
    | none => none
    | some (nl, w') =>
      let nl' := { nl with weight := e.lot.weight }
      match buyWrap ord led qual nl' with
      | none => none
      | some led' =>
        movePass2Events ord qual rest
          (led', w', outs ++ [⟨nl', e.inventory.NegClone, e.basis.NegClone⟩])

/-- `consumeMoves` pass 2 (part_006): every qualifier with a positive net
delta is funded by selling from the temporary queue. -/
def movePass2 (asset : Asset) (ord : Order) :
    List (String × ℚ) → Ledger × LotQueue × Nat × List SellEvent →
    Option (Ledger × LotQueue × Nat × List SellEvent)
  | [], st => some st
  | (qual, d) :: rest, (led, tq, w, outs) =>
    if d = 0 then movePass2 asset ord rest (led, tq, w, outs)
    else if 0 < d then
      match tq.Sell ⟨asset, -d⟩ with
      | .ok lots es =>
        match movePass2Events ord qual es (led, w, outs) with
        | none => none
        | some (led', w', outs') =>
          movePass2 asset ord rest (led', ⟨lots, tq.order⟩, w', outs')
      | .insufficient _ _ => none
      | .panic => none
    else movePass2 asset ord rest (led, tq, w, outs)

/-- The per-asset body of `consumeMoves` (part_006, lines 425-511), with
the package-level weight counter threaded explicitly.  Lot names are
modelled only up to their qualifier (date formatting is presentational).
The Go map over qualifiers is iterated in list order; the claims proved
about the result are order-independent. -/
def consumeMovesAsset (base asset : Asset) (ord : Order) (led : Ledger)
    (moves : List (String × ℚ)) (w : Nat) :
    Option (Ledger × Nat × List SellEvent) :=
  if asset = base then some (led, w, [])
  else
    match movePass1 base asset ord moves (led, ⟨[], ord⟩, w, []) with
    | none => none
    | some (led1, tq, w1, outs1) =>
      match movePass2 asset ord moves (led1, tq, w1, outs1) with
      | none => none
      | some (led2, _, w2, outs2) => some (led2, w2, outs2)

/-- Fixture for C7: `lotA` after full consumption (pass 1 of the move). -/
def lotA0 : Lot := { lotA with inventory := ⟨"ABC", 0⟩ }

/-- Fixture for C7: the temporary lot pass 1 creates for the moved
inventory: same date and per-unit basis as `lotA`, fresh weight 2. -/
def tmpLotC7 : Lot := ⟨"tmp", 0, 2, ⟨"ABC", 10⟩, ⟨"ABC", 10⟩, ⟨"USD", 20⟩, 2⟩

/-- Fixture for C7: the lot pass 2 creates in the destination qualifier:
`lotA`'s date and per-unit basis, but the temporary lot's weight 2 - not
`lotA`'s weight 1. -/
def lotC7new : Lot := ⟨"Lot:B", 0, 2, ⟨"ABC", 10⟩, ⟨"ABC", 10⟩, ⟨"USD", 20⟩, 2⟩

/-- A lot of the updated ledger keeps some original lot's date and unit
price. -/
def dpSourced (led : Ledger) (l : Lot) : Prop :=
  ∃ qual0 q0 l0, (qual0, q0) ∈ led ∧ l0 ∈ q0.lot ∧
    l.date = l0.date ∧ l.price = l0.price

/-- Every queue of `led` only holds `(date, price)`-sourced lots. -/
def ledDP (led0 led : Ledger) : Prop :=
  ∀ p ∈ led, ∀ l ∈ p.2.lot, dpSourced led0 l

/-- A queue only holds `(date, price)`-sourced lots. -/
def queueDP (led0 : Ledger) (q : LotQueue) : Prop :=
  ∀ l ∈ q.lot, dpSourced led0 l

/-- The deferred-basis branch of `consumeTrades` (part_006, lines 664-712):
a buy-side split whose cost is denominated in a non-base asset.  The cost
asset is sold from its own ledger slice (`ledCost`); the rounded basis
total funds a new lot of the bought asset in `ledNew`.  Returned alongside
the new lot is `lotDate` - the value the loop leaves in the variable that
only ever reaches the lot's display name; the Lot's own `date` field (used
later for holding-period classification) is the transaction date passed to
`NewLot`. -/
def deferredBuy (base : Asset) (ord : Order) (prec : Asset → Nat)
    (ledCost ledNew : Ledger) (qual : String) (delta cost : Amount)
    (date : Int) (w : Nat) :
    Option (Lot × Int × Ledger × Ledger × Nat × List SellEvent) :=
  match sellWrap base ord ledCost qual cost.NegClone with
  | none => none
  | some (es, ledCost') =>
    match es with
    | [] => none                       -- b[0] index panic
    | e0 :: _ =>
      -- lotBasis starts from b[0].ZeroClone() and subtracts each rounded
      -- (display-precision) basis, i.e. accumulates the positive total
      let lotBasis : Amount :=
        ⟨e0.basis.asset,
          (es.map fun e => rnd (prec e.basis.asset) e.basis.rat).foldl
            (fun acc r => acc - r) 0⟩
      -- "for purposes of long-term vs short term, use the latest date of
      -- the consumed inventory": lotDate ends at the LAST popped lot's date
      let lotDate : Int := es.foldl (fun _ e => e.lot.date) date
      match NewLot "temp" date delta lotBasis w with
      | none => none
      | some (nl, w') =>
        let nl' := { nl with name := "Lot:" ++ qual }
        match buyWrap ord ledNew qual nl' with
        | none => none
        | some ledNew' =>
          some (nl', lotDate, ledCost', ledNew', w',
            es ++ [⟨nl', delta.NegClone, lotBasis⟩])

/-- Fixture for C8: 5 XYZ acquired on day 10 (zero basis, weight 1). -/
def l10C8 : Lot := ⟨"l10", 10, 1, ⟨"XYZ", 5⟩, ⟨"XYZ", 5⟩, ⟨"USD", 0⟩, 0⟩

/-- Fixture for C8: 5 XYZ acquired on day 20 (zero basis, weight 2). -/
def l20C8 : Lot := ⟨"l20", 20, 2, ⟨"XYZ", 5⟩, ⟨"XYZ", 5⟩, ⟨"USD", 0⟩, 0⟩

/-- Fixture for C8: the FIFO queue of the two XYZ lots (later lot first in
slice order). -/
def qC8fifo : LotQueue := ⟨[l20C8, l10C8], .fifo⟩

/-- Fixture for C8: the LIFO queue of the same lots (earlier lot first). -/
def qC8lifo : LotQueue := ⟨[l10C8, l20C8], .lifo⟩

/-- Fixture for C8: the new lot created by the deferred trade on day 30:
its `date` field is the transaction date 30, not a consumed lot's date. -/
def lotC8new : Lot := ⟨"Lot:C", 30, 3, ⟨"NEW", 100⟩, ⟨"NEW", 100⟩, ⟨"USD", 0⟩, 0⟩

/-- The package-level `decimalPlaces` map (part_000): per-asset learned
precision, absent entries defaulting to 6 via `precision()`. -/
def precisionOf (reg : Asset → Option Nat) (asset : Asset) : Nat :=
  (reg asset).getD 6

/-- The digit character for `d` (`0 ≤ d ≤ 9`). -/
def digitChar (d : Nat) : Char := Char.ofNat (48 + d)

/-- Decimal rendering of a natural number, as Go's `nat.utoa(10)`:
most-significant digit first, `"0"` for zero. -/
def natChars (n : Nat) : List Char :=
  if n = 0 then ['0'] else ((Nat.digits 10 n).map digitChar).reverse

/-- The integer-rounding core of `big.Rat.FloatString(p)`: the numerator
and denominator of `|q|` are divided out, the remainder scaled by `10^p`
and divided again, and the result rounded up when the final remainder is
at least half the denominator (nearest, ties away from zero).  Returns
the non-negative integer `N` with rendered value `N / 10^p`. -/
def ratRound (q : ℚ) (p : Nat) : Nat :=
  let nAbs := q.num.natAbs
  let den := q.den
  let i := nAbs / den
  let r := nAbs % den
  let rs := r * 10 ^ p
  let r2 := rs / den
  let r3 := rs % den
  if den ≤ 2 * r3 then i * 10 ^ p + r2 + 1 else i * 10 ^ p + r2

/-- `Amount.FloatString()` (part_000): `big.Rat.FloatString` at the asset's
learned precision - a minus sign for negative values, the integer digits,
and (when the precision is positive) a point followed by the zero-padded
fraction digits. -/
def floatString (reg : Asset → Option Nat) (a : Amount) : List Char :=
  let p := precisionOf reg a.asset
  let N := ratRound a.rat p
  (if a.rat < 0 then ['-'] else []) ++
    natChars (N / 10 ^ p) ++
    (if 0 < p then
      '.' :: (List.replicate (p - (natChars (N % 10 ^ p)).length) '0' ++
        natChars (N % 10 ^ p))
    else [])

/-- `strings.Split(s, string(c))` for a one-character separator. -/
def splitOnChar (c : Char) : List Char → List (List Char)
  | [] => [[]]
  | ch :: rest =>
    let r := splitOnChar c rest
    if ch = c then [] :: r
    else (ch :: r.headI) :: r.tail

/-- `strings.TrimSpace`. -/
def trimSpace (s : List Char) : List Char :=
  ((s.dropWhile fun ch => ch.isWhitespace).reverse.dropWhile
    fun ch => ch.isWhitespace).reverse

/-- `strings.TrimRight(s, "0")`. -/
def trimRightZeros (s : List Char) : List Char :=
  (s.reverse.dropWhile fun ch => ch = '0').reverse

/-- `strings.Join(parts, ".")`. -/
def joinDot : List (List Char) → List Char
  | [] => []
  | [x] => x
  | x :: rest => x ++ '.' :: joinDot rest

/-- `Amount.String()` (part_000): the `FloatString` rendering with
trailing fraction zeros (and a then-bare point) removed, a space, and the
asset code. -/
def amountString (reg : Asset → Option Nat) (a : Amount) : List Char :=
  let f := floatString reg a
  let parts := splitOnChar '.' f
  let parts' :=
    match parts with
    | [] => []
    | [ip] => [ip]
    | ip :: fp :: rest =>
      let fp' := trimRightZeros fp
      if fp' = [] then [ip] else ip :: fp' :: rest
  joinDot parts' ++ ' ' :: a.asset.data

/-- The numeric value of a most-significant-first digit string, as
`big.Rat.SetString` reads it. -/
def digitsVal (s : List Char) : Nat :=
  s.foldl (fun acc ch => acc * 10 + (ch.toNat - 48)) 0

/-- `big.Rat.SetString` restricted to the plain decimal literals this
program renders and feeds back (optional sign, integer digits, optional
point and fraction digits); other accepted Go forms (fractions `a/b`,
exponents) never occur in the round-trip under verification. -/
def ratSetString (s : List Char) : Option ℚ :=
  let sign : ℚ := if s.headI = '-' then -1 else 1
  let mag := if s.headI = '-' ∨ s.headI = '+' then s.tail else s
  match splitOnChar '.' mag with
  | [ip] =>
    if ip ≠ [] ∧ ip.all (fun ch => ch.isDigit) then
      some (sign * (digitsVal ip : ℚ))
    else none
  | [ip, fp] =>
    if ip ≠ [] ∧ fp ≠ [] ∧ ip.all (fun ch => ch.isDigit) ∧
        fp.all (fun ch => ch.isDigit) then
      some (sign * ((digitsVal ip : ℚ) + (digitsVal fp : ℚ) / 10 ^ fp.length))
    else none
  | _ => none

/-- `parseAmount` (part_000): split the trimmed input on single spaces,
read the number and the asset token, and raise the asset's learned
precision when more fraction digits appear than currently recorded. -/
def parseAmount (reg : Asset → Option Nat) (str : List Char) :
    Option (Amount × (Asset → Option Nat)) :=
  match splitOnChar ' ' (trimSpace str) with
  | s0 :: s1 :: _ =>
    let asset : Asset := ⟨s1⟩
    match ratSetString s0 with
    | none => none
    | some v =>
      let reg' :=
        match splitOnChar '.' s0 with
        | _ :: frac :: _ =>
          if frac.length > precisionOf reg asset then
            fun a => if a = asset then some frac.length else reg a
          else reg
        | _ => reg
      some (⟨asset, v⟩, reg')
  | _ => none

/-- C1, preliminary form used by later proofs: on a lot with positive
remaining inventory and non-negative unit price, a negative compatible
delta makes `Lot.Sell` succeed with `actual = min |delta| inventory`,
the inventory reduced by `actual`, and `basis = -(price * actual) ≤ 0`;
the lot's date, weight and unit price are untouched. -/
theorem Lot.sell_spec (l : Lot) (delta : Amount)
    (hI : 0 < l.inventory.rat) (hd : delta.rat < 0)
    (hc : delta.asset = l.inventory.asset) (hp : 0 ≤ l.price) :
    ∃ l' actual basis,
      l.Sell delta = some (l', actual, basis) ∧
      actual.rat = min (-delta.rat) l.inventory.rat ∧
      0 ≤ actual.rat ∧
      l'.inventory.rat = l.inventory.rat - actual.rat ∧
      l'.inventory.asset = l.inventory.asset ∧
      l'.date = l.date ∧ l'.weight = l.weight ∧ l'.price = l.price ∧
      l'.startCost = l.startCost ∧ l'.name = l.name ∧
      actual.asset = delta.asset ∧ basis.asset = l.startCost.asset ∧
      basis.rat = -(l.price * actual.rat) ∧
      basis.rat ≤ 0 := by
  have h1 : ¬ (0 ≤ delta.rat) := not_le.mpr hd
  have h2 : ¬ ¬ delta.Compatible l.inventory := not_not_intro hc
  rcases lt_trichotomy (l.inventory.rat + delta.rat) 0 with htmp | htmp | htmp
  · -- inventory does not cover the delta: actual = whole inventory
    have hb : 0 ≤ l.price * l.inventory.rat := mul_nonneg hp hI.le
    have hg1 : ¬ (l.inventory.rat ≤ 0) := not_le.mpr hI
    have hg2 : ¬ (0 < -(l.price * l.inventory.rat)) := not_lt.mpr (neg_nonpos.mpr hb)
    have heq : l.Sell delta =
        some ({ l with inventory := l.inventory.ZeroClone }, l.inventory,
          ⟨l.startCost.asset, -(l.price * l.inventory.rat)⟩) := by
      simp only [Lot.Sell, if_neg h1, if_neg h2, if_pos htmp, if_neg hg1, if_neg hg2]
    refine ⟨_, _, _, heq, (min_eq_right (by linarith)).symm, hI.le,
      by simp [Amount.ZeroClone], rfl, rfl, rfl, rfl, rfl, rfl, hc.symm, rfl, rfl,
      neg_nonpos.mpr hb⟩
  · -- exact consumption: inventory goes to zero
    have hb : 0 ≤ l.price * -delta.rat := mul_nonneg hp (by linarith)
    have hg1 : ¬ (-delta.rat ≤ 0) := not_le.mpr (by linarith)
    have hg2 : ¬ (0 < -(l.price * -delta.rat)) := not_lt.mpr (neg_nonpos.mpr hb)
    have heq : l.Sell delta =
        some ({ l with inventory := l.inventory.ZeroClone }, delta.NegClone,
          ⟨l.startCost.asset, -(l.price * -delta.rat)⟩) := by
      simp only [Lot.Sell, if_neg h1, if_neg h2, if_neg (not_lt.mpr htmp.ge),
        if_neg (not_lt.mpr htmp.le), Amount.NegClone, if_neg hg1, if_neg hg2]
    refine ⟨_, _, _, heq, ?_, by simp [Amount.NegClone]; linarith,
      by simp [Amount.ZeroClone, Amount.NegClone]; linarith, rfl, rfl, rfl, rfl,
      rfl, rfl, rfl, rfl, by simp [Amount.NegClone], neg_nonpos.mpr hb⟩
    · rw [Amount.NegClone, min_eq_left (by linarith)]
  · -- partial consumption: remainder stays in the lot
    have hb : 0 ≤ l.price * -delta.rat := mul_nonneg hp (by linarith)
    have hg1 : ¬ (-delta.rat ≤ 0) := not_le.mpr (by linarith)
    have hg2 : ¬ (0 < -(l.price * -delta.rat)) := not_lt.mpr (neg_nonpos.mpr hb)
    have heq : l.Sell delta =
        some ({ l with inventory := ⟨l.inventory.asset, l.inventory.rat + delta.rat⟩ },
          delta.NegClone, ⟨l.startCost.asset, -(l.price * -delta.rat)⟩) := by
      simp only [Lot.Sell, if_neg h1, if_neg h2, if_neg (not_lt.mpr htmp.le),
        if_pos htmp, Amount.NegClone, if_neg hg1, if_neg hg2]
    refine ⟨_, _, _, heq, ?_, by simp [Amount.NegClone]; linarith,
      by simp [Amount.NegClone]; try ring, rfl, rfl, rfl, rfl, rfl, rfl, rfl, rfl,
      by simp [Amount.NegClone], neg_nonpos.mpr hb⟩
    · rw [Amount.NegClone, min_eq_left (by linarith)]

/-- Inversion for `Lot.Sell`: whenever the Go method returns (does not
panic), the consumed amount is `min |delta| inventory`, the lot keeps its
identity fields, and the basis is the sign-negated price-weighted amount. -/
theorem Lot.sell_eq_some {l l' : Lot} {d a b : Amount}
    (h : l.Sell d = some (l', a, b)) :
    d.rat < 0 ∧ d.asset = l.inventory.asset ∧
    0 < a.rat ∧ a.rat = min (-d.rat) l.inventory.rat ∧
    a.asset = d.asset ∧
    l'.inventory.rat = l.inventory.rat - a.rat ∧
    l'.inventory.asset = l.inventory.asset ∧
    l'.date = l.date ∧ l'.weight = l.weight ∧ l'.price = l.price ∧
    l'.name = l.name ∧ l'.startCost = l.startCost ∧
    l'.startInventory = l.startInventory ∧
    b.asset = l.startCost.asset ∧ b.rat = -(l.price * a.rat) ∧ b.rat ≤ 0 := by
  simp only [Lot.Sell] at h
  split_ifs at h with h1 h2 h3 h4 h5 h6 h7 h8 h9 h10
  · -- tmp < 0: whole inventory consumed
    dsimp only at h h4 h5
    injection h with h
    injection h with hL h
    injection h with hA hB
    subst hL; subst hA; subst hB
    have hd : d.rat < 0 := lt_of_not_ge h1
    have hcomp : d.asset = l.inventory.asset := h2
    have hinv : 0 < l.inventory.rat := lt_of_not_ge h4
    have hb : 0 ≤ l.price * l.inventory.rat := by
      have h5' := not_lt.mp h5
      linarith
    refine ⟨hd, hcomp, hinv, ?_, hcomp.symm, by simp [Amount.ZeroClone], rfl,
      rfl, rfl, rfl, rfl, rfl, rfl, rfl, rfl, ?_⟩
    · exact (min_eq_right (by linarith)).symm
    · show -(l.price * l.inventory.rat) ≤ 0
      linarith
  · -- 0 < tmp: partial consumption, remainder stays in the lot
    dsimp only at h h7 h8
    injection h with h
    injection h with hL h
    injection h with hA hB
    subst hL; subst hA; subst hB
    have hd : d.rat < 0 := lt_of_not_ge h1
    have hcomp : d.asset = l.inventory.asset := h2
    have hb : 0 ≤ l.price * -d.rat := by
      have h8' := not_lt.mp h8
      simp only [Amount.NegClone] at h8'
      linarith
    refine ⟨hd, hcomp, by simp [Amount.NegClone]; linarith, ?_,
      by simp [Amount.NegClone], ?_, rfl, rfl, rfl, rfl, rfl, rfl, rfl, rfl,
      by simp [Amount.NegClone], ?_⟩
    · show -d.rat = min (-d.rat) l.inventory.rat
      exact (min_eq_left (by linarith)).symm
    · show l.inventory.rat + d.rat = l.inventory.rat - d.NegClone.rat
      simp [Amount.NegClone]
    · show -(l.price * d.NegClone.rat) ≤ 0
      simp only [Amount.NegClone]
      linarith
  · -- tmp = 0: exact consumption
    dsimp only at h h9 h10
    injection h with h
    injection h with hL h
    injection h with hA hB
    subst hL; subst hA; subst hB
    have hd : d.rat < 0 := lt_of_not_ge h1
    have hcomp : d.asset = l.inventory.asset := h2
    have h0 : l.inventory.rat + d.rat = 0 :=
      le_antisymm (le_of_not_lt h6) (le_of_not_lt h3)
    have hb : 0 ≤ l.price * -d.rat := by
      have h10' := not_lt.mp h10
      simp only [Amount.NegClone] at h10'
      linarith
    refine ⟨hd, hcomp, by simp [Amount.NegClone]; linarith, ?_,
      by simp [Amount.NegClone], ?_, by simp [Amount.ZeroClone], rfl, rfl,
      rfl, rfl, rfl, rfl, rfl, by simp [Amount.NegClone], ?_⟩
    · show -d.rat = min (-d.rat) l.inventory.rat
      exact (min_eq_left (by linarith)).symm
    · show (0:ℚ) = l.inventory.rat - d.NegClone.rat
      simp only [Amount.NegClone]
      linarith
    · show -(l.price * d.NegClone.rat) ≤ 0
      simp only [Amount.NegClone]
      linarith

/-- `invSum` of a cons. -/
theorem invSum_cons (l : Lot) (lots : List Lot) :
    invSum (l :: lots) = l.inventory.rat + invSum lots := by
  simp [invSum]

/-- `soldSum` of a cons. -/
theorem soldSum_cons (e : SellEvent) (es : List SellEvent) :
    soldSum (e :: es) = e.inventory.rat + soldSum es := by
  simp [soldSum]

/-- A successfully consumed amount that leaves the loop with a negative
remainder must have been the popped lot's entire inventory. -/
theorem sold_all_of_rem_neg {l l' : Lot} {d a b : Amount}
    (hS : l.Sell d = some (l', a, b)) (hneg : d.rat + a.rat < 0) :
    a.rat = l.inventory.rat ∧ l'.inventory.rat = 0 := by
  obtain ⟨_, _, _, hmin, _, hinv, _⟩ := Lot.sell_eq_some hS
  rcases min_cases (-d.rat) l.inventory.rat with ⟨hm, hle⟩ | ⟨hm, hle⟩
  · rw [hmin, hm] at hneg
    linarith
  · constructor
    · rw [hmin, hm]
    · rw [hinv, hmin, hm]
      ring

/-- Conservation along the `Sell` loop: on normal return, the inventory of
the returned queue plus the total consumed equals the initial inventory,
and the total consumed is exactly `-rem`. -/
theorem sellLoop_ok_conserves {a : Asset} :
    ∀ {lots : List Lot} {rem : ℚ} {q : List Lot} {es : List SellEvent},
      sellLoop a lots rem = .ok q es →
      invSum q + soldSum es = invSum lots ∧ soldSum es = -rem := by
  intro lots
  induction lots with
  | nil =>
    intro rem q es h
    rw [sellLoop] at h
    split_ifs at h with h0
    injection h with hq he
    subst hq; subst he
    simp [invSum, soldSum, h0]
  | cons l rest ih =>
    intro rem q es h
    rw [sellLoop] at h
    split_ifs at h with h0
    · injection h with hq he
      subst hq; subst he
      simp [soldSum, h0]
    · rcases hS : l.Sell ⟨a, rem⟩ with _ | ⟨l', sold, soldBasis⟩ <;>
        simp only [hS] at h
      · exact SellResult.noConfusion h
      · split_ifs at h with hc1 hc2 hc3 hc4
        · -- rem' = 0, remainder pushed back
          injection h with hq he
          subst hq; subst he
          obtain ⟨_, _, _, _, _, hinv, _⟩ := Lot.sell_eq_some hS
          have hinv' : l'.inventory.rat = l.inventory.rat - sold.rat := hinv
          have hrem : rem + sold.rat = 0 := of_not_not hc3
          constructor
          · rw [invSum_cons, invSum_cons, soldSum_cons]
            simp only [soldSum, List.map_nil, List.sum_nil]
            linarith
          · rw [soldSum_cons]
            simp only [soldSum, List.map_nil, List.sum_nil]
            linarith
        · -- rem' = 0, lot exhausted
          injection h with hq he
          subst hq; subst he
          obtain ⟨_, _, _, hmin, _, hinv, _⟩ := Lot.sell_eq_some hS
          have hmin' : sold.rat = min (-rem) l.inventory.rat := hmin
          have hinv' : l'.inventory.rat = l.inventory.rat - sold.rat := hinv
          have hrem : rem + sold.rat = 0 := of_not_not hc3
          have hl'nonneg : 0 ≤ l'.inventory.rat := by
            have := min_le_right (-rem) l.inventory.rat
            rw [hinv', hmin']
            linarith
          have hz : l'.inventory.rat = 0 := le_antisymm (not_lt.mp hc4) hl'nonneg
          constructor
          · rw [invSum_cons, soldSum_cons]
            simp only [soldSum, List.map_nil, List.sum_nil]
            linarith
          · rw [soldSum_cons]
            simp only [soldSum, List.map_nil, List.sum_nil]
            linarith
        · -- rem' < 0: loop continues
          rcases hrec : sellLoop a rest (rem + sold.rat) with ⟨q2, es2⟩ | ⟨q2, es2⟩ | _ <;>
            simp only [hrec] at h
          · injection h with hq he
            subst hq; subst he
            obtain ⟨hco, hso⟩ := ih hrec
            have hall : sold.rat = l.inventory.rat ∧ l'.inventory.rat = 0 := by
              refine sold_all_of_rem_neg hS ?_
              show (⟨a, rem⟩ : Amount).rat + sold.rat < 0
              simpa using lt_of_not_ge hc2
            constructor
            · rw [invSum_cons, soldSum_cons]
              rw [hall.1] at *
              linarith
            · rw [soldSum_cons]
              linarith
          · exact SellResult.noConfusion h
          · exact SellResult.noConfusion h

/-- On the error return ("no remaining inventory") the loop has emptied the
queue, consuming every lot's inventory in full. -/
theorem sellLoop_insufficient_spec {a : Asset} :
    ∀ {lots : List Lot} {rem : ℚ} {q : List Lot} {es : List SellEvent},
      sellLoop a lots rem = .insufficient q es →
      q = [] ∧ soldSum es = invSum lots ∧ rem + soldSum es ≠ 0 := by
  intro lots
  induction lots with
  | nil =>
    intro rem q es h
    rw [sellLoop] at h
    split_ifs at h with h0
    injection h with hq he
    subst hq; subst he
    simpa [invSum, soldSum] using h0
  | cons l rest ih =>
    intro rem q es h
    rw [sellLoop] at h
    split_ifs at h with h0
    rcases hS : l.Sell ⟨a, rem⟩ with _ | ⟨l', sold, soldBasis⟩ <;>
      simp only [hS] at h
    · exact SellResult.noConfusion h
    · split_ifs at h with hc1 hc2 hc3
      rcases hrec : sellLoop a rest (rem + sold.rat) with ⟨q2, es2⟩ | ⟨q2, es2⟩ | _ <;>
        simp only [hrec] at h
      · exact SellResult.noConfusion h
      · injection h with hq he
        subst hq; subst he
        obtain ⟨hq2, hsum, hne⟩ := ih hrec
        have hall : sold.rat = l.inventory.rat ∧ l'.inventory.rat = 0 := by
          refine sold_all_of_rem_neg hS ?_
          show (⟨a, rem⟩ : Amount).rat + sold.rat < 0
          simpa using lt_of_not_ge hc2
        refine ⟨hq2, ?_, ?_⟩
        · rw [soldSum_cons, invSum_cons, hsum, hall.1]
        · rw [soldSum_cons]
          intro hcon
          exact hne (by linarith)
      · exact SellResult.noConfusion h

/-- One-step unfolding of the loop body when the popped lot's `Sell`
returns and passes the loop's sanity check. -/
theorem sellLoop_cons_eq {a : Asset} {l : Lot} {rest : List Lot} {rem : ℚ}
    (hrem : ¬ rem = 0) {l' : Lot} {sold soldBasis : Amount}
    (hS : l.Sell ⟨a, rem⟩ = some (l', sold, soldBasis))
    (hok : ¬ (sold.rat < 0 ∨ 0 < soldBasis.rat)) :
    sellLoop a (l :: rest) rem =
      if 0 ≤ rem + sold.rat then
        if rem + sold.rat ≠ 0 then .panic
        else .ok (if 0 < l'.inventory.rat then l' :: rest else rest)
               [⟨l', sold, soldBasis⟩]
      else
        match sellLoop a rest (rem + sold.rat) with
        | .ok q es => .ok q (⟨l', sold, soldBasis⟩ :: es)
        | .insufficient q es => .insufficient q (⟨l', sold, soldBasis⟩ :: es)
        | .panic => .panic := by
  rw [sellLoop, if_neg hrem]
  simp only [hS]
  rw [if_neg hok]

/-- A list of lots with positive inventories has non-negative total. -/
theorem invSum_nonneg {lots : List Lot} (h : ∀ l ∈ lots, 0 < l.inventory.rat) :
    0 ≤ invSum lots := by
  induction lots with
  | nil => simp [invSum]
  | cons l rest ih =>
    rw [invSum_cons]
    have h1 := h l (List.mem_cons_self l rest)
    have h2 := ih fun x hx => h x (List.mem_cons_of_mem l hx)
    linarith

/-- Progress: with a negative remainder and a well-formed segment of lots
(positive inventories, the right asset, non-negative prices) the loop never
panics; it takes the error exit exactly when the total inventory cannot
cover `-rem`, and returns normally otherwise. -/
theorem sellLoop_progress {a : Asset} :
    ∀ {lots : List Lot} {rem : ℚ}, rem < 0 →
      (∀ l ∈ lots, 0 < l.inventory.rat ∧ l.inventory.asset = a ∧ 0 ≤ l.price) →
      (invSum lots < -rem → ∃ es, sellLoop a lots rem = .insufficient [] es) ∧
      (-rem ≤ invSum lots → ∃ q es, sellLoop a lots rem = .ok q es) := by
  intro lots
  induction lots with
  | nil =>
    intro rem hrem hwf
    constructor
    · intro _
      refine ⟨[], ?_⟩
      rw [sellLoop, if_neg hrem.ne]
    · intro hge
      exfalso
      simp only [invSum, List.map_nil, List.sum_nil] at hge
      linarith
  | cons l rest ih =>
    intro rem hrem hwf
    obtain ⟨hl1, hl2, hl3⟩ := hwf l (List.mem_cons_self l rest)
    have hwfr : ∀ x ∈ rest, 0 < x.inventory.rat ∧ x.inventory.asset = a ∧ 0 ≤ x.price :=
      fun x hx => hwf x (List.mem_cons_of_mem l hx)
    obtain ⟨l', actual, basis, hS, hmin, hnn, hinv, _, _, _, _, _, _, _, _, _, hble⟩ :=
      Lot.sell_spec l ⟨a, rem⟩ hl1 hrem hl2.symm hl3
    have hmin' : actual.rat = min (-rem) l.inventory.rat := hmin
    have hapos : 0 < actual.rat := by
      rw [hmin']
      exact lt_min (by linarith) hl1
    have hok : ¬ (actual.rat < 0 ∨ 0 < basis.rat) := by
      push_neg
      exact ⟨hnn, hble⟩
    have hstep := @sellLoop_cons_eq a l rest rem hrem.ne l' actual basis hS hok
    by_cases hcover : -rem ≤ l.inventory.rat
    · -- this lot alone covers the remainder: loop exits normally
      have hact : actual.rat = -rem := by
        rw [hmin', min_eq_left hcover]
      have hrem0 : rem + actual.rat = 0 := by rw [hact]; ring
      have hres : sellLoop a (l :: rest) rem =
          .ok (if 0 < l'.inventory.rat then l' :: rest else rest)
            [⟨l', actual, basis⟩] := by
        rw [hstep, if_pos (by linarith), if_neg (not_not_intro hrem0)]
      constructor
      · intro hlt
        exfalso
        rw [invSum_cons] at hlt
        have := invSum_nonneg fun x hx => (hwfr x hx).1
        linarith
      · intro _
        exact ⟨_, _, hres⟩
    · -- the rest of the queue must be consulted
      push_neg at hcover
      have hact : actual.rat = l.inventory.rat := by
        rw [hmin', min_eq_right hcover.le]
      have hrem' : rem + actual.rat < 0 := by rw [hact]; linarith
      obtain ⟨ihI, ihO⟩ := ih hrem' hwfr
      constructor
      · intro hlt
        rw [invSum_cons] at hlt
        obtain ⟨es, hrec⟩ := ihI (by rw [hact]; linarith)
        refine ⟨⟨l', actual, basis⟩ :: es, ?_⟩
        rw [hstep, if_neg (not_le.mpr hrem'), hrec]
      · intro hge
        rw [invSum_cons] at hge
        obtain ⟨q, es, hrec⟩ := ihO (by rw [hact]; linarith)
        refine ⟨q, ⟨l', actual, basis⟩ :: es, ?_⟩
        rw [hstep, if_neg (not_le.mpr hrem'), hrec]

/-- The loop only ever returns queues whose lots still hold positive
inventory (the push-back is guarded by `l.inventory.Sign() > 0`). -/
theorem sellLoop_preserves_pos {a : Asset} :
    ∀ {lots : List Lot} {rem : ℚ} {q : List Lot} {es : List SellEvent},
      (∀ l ∈ lots, 0 < l.inventory.rat) →
      (sellLoop a lots rem = .ok q es ∨ sellLoop a lots rem = .insufficient q es) →
      ∀ x ∈ q, 0 < x.inventory.rat := by
  intro lots
  induction lots with
  | nil =>
    intro rem q es hpos h x hx
    rcases h with h | h <;> rw [sellLoop] at h <;> split_ifs at h with h0 <;>
      injection h with hq he <;> subst hq <;>
      exact absurd hx (List.not_mem_nil x)
  | cons l rest ih =>
    intro rem q es hpos h x hx
    have hposr : ∀ y ∈ rest, 0 < y.inventory.rat :=
      fun y hy => hpos y (List.mem_cons_of_mem l hy)
    rcases h with h | h
    · rw [sellLoop] at h
      split_ifs at h with h0
      · injection h with hq he
        subst hq
        exact hpos x hx
      · rcases hS : l.Sell ⟨a, rem⟩ with _ | ⟨l', sold, soldBasis⟩ <;>
          simp only [hS] at h
        · exact SellResult.noConfusion h
        · split_ifs at h with hc1 hc2 hc3 hc4
          · injection h with hq he
            subst hq
            rcases List.mem_cons.mp hx with hx' | hx'
            · rw [hx']
              exact hc4
            · exact hposr x hx'
          · injection h with hq he
            subst hq
            exact hposr x hx
          · rcases hrec : sellLoop a rest (rem + sold.rat) with ⟨q2, es2⟩ | ⟨q2, es2⟩ | _ <;>
              simp only [hrec] at h
            · injection h with hq he
              subst hq
              exact ih hposr (Or.inl hrec) x hx
            · exact SellResult.noConfusion h
            · exact SellResult.noConfusion h
    · rw [sellLoop] at h
      split_ifs at h with h0
      rcases hS : l.Sell ⟨a, rem⟩ with _ | ⟨l', sold, soldBasis⟩ <;>
        simp only [hS] at h
      · exact SellResult.noConfusion h
      · split_ifs at h with hc1 hc2 hc3
        rcases hrec : sellLoop a rest (rem + sold.rat) with ⟨q2, es2⟩ | ⟨q2, es2⟩ | _ <;>
          simp only [hrec] at h
        · exact SellResult.noConfusion h
        · injection h with hq he
          subst hq
          exact ih hposr (Or.inr hrec) x hx
        · exact SellResult.noConfusion h

/-- Provenance: every lot left in the queue and every recorded sell event
stems from one of the incoming lots, keeping that lot's date, weight, unit
price and asset; an event's basis is the sign-negated price-weighted
consumed amount, which is itself positive. -/
theorem sellLoop_provenance {a : Asset} :
    ∀ {lots : List Lot} {rem : ℚ} {q : List Lot} {es : List SellEvent},
      (sellLoop a lots rem = .ok q es ∨ sellLoop a lots rem = .insufficient q es) →
      (∀ x ∈ q, ∃ l, l ∈ lots ∧ x.date = l.date ∧ x.weight = l.weight ∧
          x.price = l.price ∧ x.inventory.asset = l.inventory.asset ∧
          x.startCost = l.startCost) ∧
      (∀ e ∈ es, ∃ l, l ∈ lots ∧ e.lot.date = l.date ∧ e.lot.weight = l.weight ∧
          e.lot.price = l.price ∧ e.lot.inventory.asset = l.inventory.asset ∧
          0 < e.inventory.rat ∧ e.inventory.asset = a ∧
          e.basis.rat = -(l.price * e.inventory.rat) ∧
          e.basis.asset = l.startCost.asset) := by
  intro lots
  induction lots with
  | nil =>
    intro rem q es h
    rcases h with h | h <;> rw [sellLoop] at h <;> split_ifs at h with h0 <;>
      injection h with hq he <;> subst hq <;> subst he <;>
      exact ⟨fun x hx => absurd hx (List.not_mem_nil x),
        fun e he => absurd he (List.not_mem_nil e)⟩
  | cons l rest ih =>
    intro rem q es h
    have self0 : ∀ x : Lot, x ∈ l :: rest → ∃ y, y ∈ l :: rest ∧ x.date = y.date ∧
        x.weight = y.weight ∧ x.price = y.price ∧
        x.inventory.asset = y.inventory.asset ∧ x.startCost = y.startCost :=
      fun x hx => ⟨x, hx, rfl, rfl, rfl, rfl, rfl⟩
    rcases h with h | h
    · rw [sellLoop] at h
      split_ifs at h with h0
      · injection h with hq he
        subst hq; subst he
        exact ⟨self0, fun e he => absurd he (List.not_mem_nil e)⟩
      · rcases hS : l.Sell ⟨a, rem⟩ with _ | ⟨l', sold, soldBasis⟩ <;>
          simp only [hS] at h
        · exact SellResult.noConfusion h
        · obtain ⟨_, _, hspos, _, hsa, _, hl'a, hl'd, hl'w, hl'p, _, hl'c, _,
            hba, hbr, _⟩ := Lot.sell_eq_some hS
          have hev : ∃ y, y ∈ l :: rest ∧ l'.date = y.date ∧ l'.weight = y.weight ∧
              l'.price = y.price ∧ l'.inventory.asset = y.inventory.asset ∧
              l'.startCost = y.startCost :=
            ⟨l, List.mem_cons_self l rest, hl'd, hl'w, hl'p, hl'a, hl'c⟩
          have hevE : ∃ y, y ∈ l :: rest ∧ l'.date = y.date ∧ l'.weight = y.weight ∧
              l'.price = y.price ∧ l'.inventory.asset = y.inventory.asset ∧
              0 < sold.rat ∧ sold.asset = a ∧
              soldBasis.rat = -(y.price * sold.rat) ∧
              soldBasis.asset = y.startCost.asset :=
            ⟨l, List.mem_cons_self l rest, hl'd, hl'w, hl'p, hl'a, hspos, hsa,
              hbr, hba⟩
          split_ifs at h with hc1 hc2 hc3 hc4
          · injection h with hq he
            subst hq; subst he
            refine ⟨?_, ?_⟩
            · intro x hx
              rcases List.mem_cons.mp hx with hx' | hx'
              · subst hx'
                exact hev
              · exact self0 x (List.mem_cons_of_mem l hx')
            · intro e he
              rcases List.mem_singleton.mp he with he'
              subst he'
              exact hevE
          · injection h with hq he
            subst hq; subst he
            refine ⟨fun x hx => self0 x (List.mem_cons_of_mem l hx), ?_⟩
            intro e he
            rcases List.mem_singleton.mp he with he'
            subst he'
            exact hevE
          · rcases hrec : sellLoop a rest (rem + sold.rat) with ⟨q2, es2⟩ | ⟨q2, es2⟩ | _ <;>
              simp only [hrec] at h
            · injection h with hq he
              subst hq; subst he
              obtain ⟨ihq, ihe⟩ := ih (Or.inl hrec)
              refine ⟨?_, ?_⟩
              · intro x hx
                obtain ⟨y, hy, hrest⟩ := ihq x hx
                exact ⟨y, List.mem_cons_of_mem l hy, hrest⟩
              · intro e he
                rcases List.mem_cons.mp he with he' | he'
                · subst he'
                  exact hevE
                · obtain ⟨y, hy, hrest⟩ := ihe e he'
                  exact ⟨y, List.mem_cons_of_mem l hy, hrest⟩
            · exact SellResult.noConfusion h
            · exact SellResult.noConfusion h
    · rw [sellLoop] at h
      split_ifs at h with h0
      rcases hS : l.Sell ⟨a, rem⟩ with _ | ⟨l', sold, soldBasis⟩ <;>
        simp only [hS] at h
      · exact SellResult.noConfusion h
      · obtain ⟨_, _, hspos, _, hsa, _, hl'a, hl'd, hl'w, hl'p, _, hl'c, _,
          hba, hbr, _⟩ := Lot.sell_eq_some hS
        have hevE : ∃ y, y ∈ l :: rest ∧ l'.date = y.date ∧ l'.weight = y.weight ∧
            l'.price = y.price ∧ l'.inventory.asset = y.inventory.asset ∧
            0 < sold.rat ∧ sold.asset = a ∧
            soldBasis.rat = -(y.price * sold.rat) ∧
            soldBasis.asset = y.startCost.asset :=
          ⟨l, List.mem_cons_self l rest, hl'd, hl'w, hl'p, hl'a, hspos, hsa,
            hbr, hba⟩
        split_ifs at h with hc1 hc2 hc3
        rcases hrec : sellLoop a rest (rem + sold.rat) with ⟨q2, es2⟩ | ⟨q2, es2⟩ | _ <;>
          simp only [hrec] at h
        · exact SellResult.noConfusion h
        · injection h with hq he
          subst hq; subst he
          obtain ⟨ihq, ihe⟩ := ih (Or.inr hrec)
          refine ⟨?_, ?_⟩
          · intro x hx
            obtain ⟨y, hy, hrest⟩ := ihq x hx
            exact ⟨y, List.mem_cons_of_mem l hy, hrest⟩
          · intro e he
            rcases List.mem_cons.mp he with he' | he'
            · subst he'
              exact hevE
            · obtain ⟨y, hy, hrest⟩ := ihe e he'
              exact ⟨y, List.mem_cons_of_mem l hy, hrest⟩
        · exact SellResult.noConfusion h

/-- `invSum` ignores list order. -/
theorem invSum_reverse (lots : List Lot) : invSum lots.reverse = invSum lots := by
  simp [invSum, List.map_reverse, List.sum_reverse]

/-- `LotQueue.Buy` adds exactly the bought lot's inventory (the re-sort is a
permutation). -/
theorem LotQueue.buy_eq_some {q : LotQueue} {l : Lot} {q' : LotQueue}
    (h : q.Buy l = some q') :
    invSum q'.lot = invSum q.lot + l.inventory.rat ∧
    q'.order = q.order ∧
    (∀ x, x ∈ q'.lot ↔ x ∈ q.lot ∨ x = l) ∧
    List.Sorted (lotLE q.order) q'.lot := by
  rw [LotQueue.Buy] at h
  split_ifs at h with hs
  injection h with h
  subst h
  have hperm := List.perm_insertionSort (lotLE q.order) (q.lot ++ [l])
  refine ⟨?_, rfl, ?_, ?_⟩
  · have := (hperm.map fun x => x.inventory.rat).sum_eq
    simp only [invSum]
    rw [this]
    simp
  · intro x
    rw [hperm.mem_iff]
    simp
  · exact List.sorted_insertionSort (lotLE q.order) (q.lot ++ [l])

/-- Conservation for `LotQueue.Sell` on normal return. -/
theorem LotQueue.sell_ok_conserves {q : LotQueue} {delta : Amount}
    {qs : List Lot} {es : List SellEvent}
    (h : q.Sell delta = .ok qs es) :
    invSum qs + soldSum es = invSum q.lot ∧ soldSum es = -delta.rat := by
  rw [LotQueue.Sell] at h
  split_ifs at h with hs
  rcases hL : sellLoop delta.asset q.lot.reverse delta.rat with ⟨q2, es2⟩ | ⟨q2, es2⟩ | _ <;>
    simp only [hL] at h
  · injection h with hq he
    subst hq; subst he
    obtain ⟨hc, hsold⟩ := sellLoop_ok_conserves hL
    rw [invSum_reverse] at hc
    exact ⟨by rw [invSum_reverse]; linarith, hsold⟩
  · exact SellResult.noConfusion h
  · exact SellResult.noConfusion h

/-- On `LotQueue.Sell`'s error return the queue has been fully drained. -/
theorem LotQueue.sell_insufficient {q : LotQueue} {delta : Amount}
    {qs : List Lot} {es : List SellEvent}
    (h : q.Sell delta = .insufficient qs es) :
    qs = [] ∧ soldSum es = invSum q.lot ∧ delta.rat + soldSum es ≠ 0 := by
  rw [LotQueue.Sell] at h
  split_ifs at h with hs
  rcases hL : sellLoop delta.asset q.lot.reverse delta.rat with ⟨q2, es2⟩ | ⟨q2, es2⟩ | _ <;>
    simp only [hL] at h
  · exact SellResult.noConfusion h
  · injection h with hq he
    subst hq; subst he
    obtain ⟨hq2, hsold, hne⟩ := sellLoop_insufficient_spec hL
    subst hq2
    rw [invSum_reverse] at hsold
    exact ⟨rfl, hsold, hne⟩
  · exact SellResult.noConfusion h

/-- Progress for `LotQueue.Sell` on a non-empty well-formed queue and a
negative delta: no panic; the error return happens exactly when the queue
holds less than `-delta`. -/
theorem LotQueue.sell_progress {q : LotQueue} {delta : Amount}
    (hne : q.lot ≠ []) (hd : delta.rat < 0)
    (hwf : ∀ l ∈ q.lot, WFLot delta.asset l) :
    (invSum q.lot < -delta.rat → ∃ es, q.Sell delta = .insufficient [] es) ∧
    (-delta.rat ≤ invSum q.lot → ∃ qs es, q.Sell delta = .ok qs es) := by
  have hsan : q.sanityOK delta := by
    rw [LotQueue.sanityOK]
    refine ⟨hd.ne, ?_⟩
    rcases hq : q.lot with _ | ⟨l0, rest⟩
    · exact absurd hq hne
    · have := (hwf l0 (by rw [hq]; exact List.mem_cons_self l0 rest)).2.1
      simp only [this]
  have hwf' : ∀ l ∈ q.lot.reverse, 0 < l.inventory.rat ∧
      l.inventory.asset = delta.asset ∧ 0 ≤ l.price :=
    fun l hl => hwf l (List.mem_reverse.mp hl)
  obtain ⟨hI, hO⟩ := sellLoop_progress hd hwf'
  constructor
  · intro hlt
    obtain ⟨es, hres⟩ := hI (by rw [invSum_reverse]; exact hlt)
    refine ⟨es, ?_⟩
    rw [LotQueue.Sell, if_neg (not_not_intro hsan), hres]
    rfl
  · intro hge
    obtain ⟨qs, es, hres⟩ := hO (by rw [invSum_reverse]; exact hge)
    refine ⟨qs.reverse, es, ?_⟩
    rw [LotQueue.Sell, if_neg (not_not_intro hsan), hres]

/-- The conservation invariant survives every successful call. -/
theorem foldl_applyOp_invariant :
    ∀ (ops : List Op) (st st' : LotQueue × ℚ × ℚ),
      st.2.1 = invSum st.1.lot + st.2.2 →
      List.foldlM applyOp st ops = some st' →
      st'.2.1 = invSum st'.1.lot + st'.2.2 := by
  intro ops
  induction ops with
  | nil =>
    intro st st' hinv h
    injection h with h
    subst h
    exact hinv
  | cons op rest ih =>
    intro st st' hinv h
    rw [List.foldlM_cons] at h
    rcases hop : applyOp st op with _ | st1 <;> rw [hop] at h
    · exact Option.noConfusion h
    · refine ih st1 st' ?_ h
      rcases op with l | d <;> rw [applyOp] at hop
      · rcases hb : st.1.Buy l with _ | q' <;> rw [hb] at hop
        · exact Option.noConfusion hop
        · injection hop with hop
          subst hop
          obtain ⟨hsum, _, _, _⟩ := LotQueue.buy_eq_some hb
          simp only [hsum]
          rw [hinv]
          ring
      · rcases hs : st.1.Sell d with ⟨lots, es⟩ | ⟨lots, es⟩ | _ <;> rw [hs] at hop
        · injection hop with hop
          subst hop
          obtain ⟨hsum, _⟩ := LotQueue.sell_ok_conserves hs
          simp only
          rw [hinv]
          linarith
        · exact Option.noConfusion hop
        · exact Option.noConfusion hop

/-- Selling strictly less than the tail lot's inventory pops exactly that
lot, pushes it back partially consumed, and touches nothing else. -/
theorem LotQueue.sell_small_pops_tail {q : LotQueue} {delta : Amount}
    {init : List Lot} {t : Lot}
    (hq : q.lot = init ++ [t]) (hd : delta.rat < 0)
    (hwf : ∀ l ∈ q.lot, WFLot delta.asset l)
    (hsmall : -delta.rat < t.inventory.rat) :
    ∃ t' a b, q.Sell delta = .ok (init ++ [t']) [⟨t', a, b⟩] ∧
      a.rat = -delta.rat ∧
      t'.inventory.rat = t.inventory.rat + delta.rat ∧
      t'.date = t.date ∧ t'.weight = t.weight ∧ t'.price = t.price := by
  have hsan : q.sanityOK delta := by
    rw [LotQueue.sanityOK]
    refine ⟨hd.ne, ?_⟩
    rcases hql : q.lot with _ | ⟨l0, rest⟩
    · rw [hql] at hq
      exact absurd hq.symm (List.append_ne_nil_of_right_ne_nil init (by simp))
    · have := (hwf l0 (by rw [hql]; exact List.mem_cons_self l0 rest)).2.1
      simp only [this]
  have htmem : t ∈ q.lot := by
    rw [hq]
    simp
  obtain ⟨hpos, hasset, hprice⟩ := hwf t htmem
  obtain ⟨t', actual, b, hS, hmin, hnn, hinv, hia, hdt, hwt, hpr, hsc, hnm,
    haa, hba, hbr, hbl⟩ := Lot.sell_spec t delta hpos hd hasset.symm hprice
  have hact : actual.rat = -delta.rat := by
    rw [hmin, min_eq_left hsmall.le]
  have hrem0 : delta.rat + actual.rat = 0 := by rw [hact]; ring
  have ht'pos : 0 < t'.inventory.rat := by
    rw [hinv, hact]
    linarith
  have hok : ¬ (actual.rat < 0 ∨ 0 < b.rat) := by
    push_neg
    exact ⟨hnn, hbl⟩
  have hS' : t.Sell ⟨delta.asset, delta.rat⟩ = some (t', actual, b) := hS
  have hstep := @sellLoop_cons_eq delta.asset t init.reverse delta.rat hd.ne
    t' actual b hS' hok
  have hloop : sellLoop delta.asset (t :: init.reverse) delta.rat =
      .ok (t' :: init.reverse) [⟨t', actual, b⟩] := by
    rw [hstep, if_pos (by linarith), if_neg (not_not_intro hrem0),
      if_pos ht'pos]
  refine ⟨t', actual, b, ?_, hact, by rw [hinv, hact]; ring, hdt, hwt, hpr⟩
  rw [LotQueue.Sell, if_neg (not_not_intro hsan), hq]
  rw [show (init ++ [t]).reverse = t :: init.reverse by simp]
  rw [hloop]
  simp

/-- C1: for every Lot with remaining inventory `I > 0` (and the documented
lot invariant `0 ≤ price`) and every negative, asset-compatible delta,
`Lot.Sell(delta)` returns `actual = min |delta| I` with `actual ≥ 0`, sets
the remaining inventory to `I - actual` (zero when `|delta| ≥ I`), and
returns `basis = -(price * actual) ≤ 0`. -/
theorem claim_C1_lot_sell (l : Lot) (delta : Amount)
    (hI : 0 < l.inventory.rat) (hd : delta.rat < 0)
    (hc : delta.Compatible l.inventory) (hp : 0 ≤ l.price) :
    ∃ l' actual basis, l.Sell delta = some (l', actual, basis) ∧
      actual.rat = min (-delta.rat) l.inventory.rat ∧ 0 ≤ actual.rat ∧
      l'.inventory.rat = l.inventory.rat - actual.rat ∧
      (l.inventory.rat ≤ -delta.rat → l'.inventory.rat = 0) ∧
      basis.rat = -(l.price * actual.rat) ∧ basis.rat ≤ 0 := by
  obtain ⟨l', a, b, h1, h2, h3, h4, _, _, _, _, _, _, _, _, h5, h6⟩ :=
    Lot.sell_spec l delta hI hd hc hp
  refine ⟨l', a, b, h1, h2, h3, h4, ?_, h5, h6⟩
  intro hge
  rw [h4, h2, min_eq_right hge, sub_self]

/-- Witness for C1 at a concrete lot and delta. -/
theorem claim_C1_lot_sell_witness :
    ∃ l' actual basis, lotA.Sell ⟨"ABC", -4⟩ = some (l', actual, basis) ∧
      actual.rat = min (-(Amount.rat ⟨"ABC", -4⟩)) lotA.inventory.rat ∧
      0 ≤ actual.rat ∧
      l'.inventory.rat = lotA.inventory.rat - actual.rat ∧
      (lotA.inventory.rat ≤ -(Amount.rat ⟨"ABC", -4⟩) → l'.inventory.rat = 0) ∧
      basis.rat = -(lotA.price * actual.rat) ∧ basis.rat ≤ 0 :=
  claim_C1_lot_sell lotA ⟨"ABC", -4⟩ (by norm_num [lotA]) (by norm_num)
    (by simp [lotA, Amount.Compatible]) (by norm_num [lotA])

/-- C2: over any sequence of `Buy` and successful `Sell` calls on one
queue starting empty, the total original inventory bought equals the
inventory still in the queue plus the total of all actual amounts sold. -/
theorem claim_C2_conservation (ord : Order) (ops : List Op)
    (q : LotQueue) (bought sold : ℚ)
    (h : runOps ord ops = some (q, bought, sold)) :
    bought = invSum q.lot + sold := by
  have hinv : (((⟨[], ord⟩ : LotQueue), (0 : ℚ), (0 : ℚ)) : LotQueue × ℚ × ℚ).2.1 =
      invSum (((⟨[], ord⟩ : LotQueue), (0 : ℚ), (0 : ℚ)) : LotQueue × ℚ × ℚ).1.lot +
      (((⟨[], ord⟩ : LotQueue), (0 : ℚ), (0 : ℚ)) : LotQueue × ℚ × ℚ).2.2 := by
    simp [invSum]
  exact foldl_applyOp_invariant ops _ (q, bought, sold) hinv h

/-- Witness for C2: buy 10 ABC then sell 4 ABC. -/
theorem claim_C2_conservation_witness :
    (10 : ℚ) = invSum ({ lotA with inventory := ⟨"ABC", 6⟩ } :: []) + 4 :=
  claim_C2_conservation .fifo [.buy lotA, .sell ⟨"ABC", -4⟩]
    ⟨[{ lotA with inventory := ⟨"ABC", 6⟩ }], .fifo⟩ 10 4 (by
      norm_num [runOps, applyOp, LotQueue.Buy, LotQueue.Sell, LotQueue.sanityOK,
        sellLoop, Lot.Sell, Amount.Compatible, Amount.ZeroClone, Amount.NegClone,
        lotA, soldSum, List.insertionSort, List.orderedInsert])

/-- C6: on a non-empty well-formed queue and negative delta, `Sell` returns
the insufficient-inventory error iff the queue holds less than `|delta|`
(equivalently: iff the loop empties the queue before the remainder is
satisfied); on that error the remaining queue state is empty with every
previously held amount consumed, and on normal return the remainder was
consumed exactly. -/
theorem claim_C6_insufficient_iff (q : LotQueue) (delta : Amount)
    (hne : q.lot ≠ []) (hd : delta.rat < 0)
    (hwf : ∀ l ∈ q.lot, WFLot delta.asset l) :
    ((∃ qs es, q.Sell delta = .insufficient qs es) ↔ invSum q.lot < -delta.rat) ∧
    (∀ qs es, q.Sell delta = .insufficient qs es →
        qs = [] ∧ soldSum es = invSum q.lot) ∧
    (∀ qs es, q.Sell delta = .ok qs es → soldSum es = -delta.rat) := by
  obtain ⟨hI, hO⟩ := LotQueue.sell_progress hne hd hwf
  refine ⟨⟨?_, ?_⟩, ?_, ?_⟩
  · rintro ⟨qs, es, h⟩
    by_contra hge
    push_neg at hge
    obtain ⟨qs2, es2, h2⟩ := hO hge
    rw [h] at h2
    exact SellResult.noConfusion h2
  · intro hlt
    obtain ⟨es, h⟩ := hI hlt
    exact ⟨[], es, h⟩
  · intro qs es h
    obtain ⟨h1, h2, _⟩ := LotQueue.sell_insufficient h
    exact ⟨h1, h2⟩
  · intro qs es h
    exact (LotQueue.sell_ok_conserves h).2

/-- Witness for C6: selling 15 ABC from a queue holding 10 fails. -/
theorem claim_C6_insufficient_iff_witness :
    ∃ qs es, qA.Sell ⟨"ABC", -15⟩ = SellResult.insufficient qs es :=
  (claim_C6_insufficient_iff qA ⟨"ABC", -15⟩ (by simp [qA]) (by norm_num)
      (by
        intro l hl
        simp only [qA, List.mem_singleton] at hl
        subst hl
        refine ⟨by norm_num [lotA], rfl, by norm_num [lotA]⟩)).1.mpr
    (by norm_num [qA, lotA, invSum])

/-- C10: every lot residing in a queue keeps strictly positive remaining
inventory: `NewLot` only builds lots with positive inventory, `Buy` of a
positive-inventory lot preserves the property, and `Sell` pushes a popped
lot back only while its remaining inventory is still positive. -/
theorem claim_C10_positive_inventory :
    (∀ (name : String) (date : Int) (inventory basis : Amount) (w : Nat)
        (l : Lot) (w' : Nat),
        NewLot name date inventory basis w = some (l, w') →
        0 < l.inventory.rat) ∧
    (∀ (q q' : LotQueue) (l : Lot),
        (∀ x ∈ q.lot, 0 < x.inventory.rat) → 0 < l.inventory.rat →
        q.Buy l = some q' → ∀ x ∈ q'.lot, 0 < x.inventory.rat) ∧
    (∀ (q : LotQueue) (delta : Amount) (qs : List Lot) (es : List SellEvent),
        (∀ x ∈ q.lot, 0 < x.inventory.rat) →
        (q.Sell delta = .ok qs es ∨ q.Sell delta = .insufficient qs es) →
        ∀ x ∈ qs, 0 < x.inventory.rat) := by
  refine ⟨?_, ?_, ?_⟩
  · intro name date inventory basis w l w' h
    simp only [NewLot] at h
    split_ifs at h with h1 h2 h3
    injection h with h
    injection h with hl hw
    subst hl
    simpa using lt_of_not_ge h1
  · intro q q' l hq hl h x hx
    obtain ⟨_, _, hmem, _⟩ := LotQueue.buy_eq_some h
    rcases (hmem x).mp hx with hx' | hx'
    · exact hq x hx'
    · rw [hx']
      exact hl
  · intro q delta qs es hq h x hx
    have hpos : ∀ y ∈ q.lot.reverse, 0 < y.inventory.rat :=
      fun y hy => hq y (List.mem_reverse.mp hy)
    rw [LotQueue.Sell] at h
    rcases h with h | h <;> split_ifs at h with hs <;>
      rcases hL : sellLoop delta.asset q.lot.reverse delta.rat with
        ⟨q2, es2⟩ | ⟨q2, es2⟩ | _ <;> simp only [hL] at h
    · injection h with hqs he
      subst hqs
      exact sellLoop_preserves_pos hpos (Or.inl hL) x (List.mem_reverse.mp hx)
    · exact SellResult.noConfusion h
    · exact SellResult.noConfusion h
    · exact SellResult.noConfusion h
    · injection h with hqs he
      subst hqs
      exact sellLoop_preserves_pos hpos (Or.inr hL) x (List.mem_reverse.mp hx)
    · exact SellResult.noConfusion h

/-- Witness for C10: buying `lotA` into the empty FIFO queue leaves only
positive-inventory lots. -/
theorem claim_C10_positive_inventory_witness :
    ∀ x ∈ (⟨[lotA], Order.fifo⟩ : LotQueue).lot, 0 < x.inventory.rat :=
  claim_C10_positive_inventory.2.1 ⟨[], .fifo⟩ ⟨[lotA], .fifo⟩ lotA
    (by simp) (by norm_num [lotA]) (by decide)

/-- C3: lots are consumed in the total order given by `(date, weight)`.
Under FIFO the tail lot of a `Less`-sorted queue - the one `Sell` pops
first - is strictly earliest by `(date, weight)` (equal dates broken by
the smaller, i.e. earlier-created, weight), and selling less than its
inventory leaves exactly that lot partially consumed with every other lot
untouched; under LIFO the mirror holds with the strictly latest lot. -/
theorem claim_C3_consumption_order :
    (∀ (q : LotQueue) (delta : Amount) (init : List Lot) (t : Lot),
        q.order = .fifo →
        List.Sorted (lotLE .fifo) q.lot →
        q.lot = init ++ [t] →
        (∀ l ∈ init, ¬ (l.date = t.date ∧ l.weight = t.weight)) →
        delta.rat < 0 →
        (∀ l ∈ q.lot, WFLot delta.asset l) →
        -delta.rat < t.inventory.rat →
        (∀ l ∈ init, t.date < l.date ∨ (t.date = l.date ∧ t.weight < l.weight)) ∧
        ∃ t' a b, q.Sell delta = .ok (init ++ [t']) [⟨t', a, b⟩] ∧
          a.rat = -delta.rat ∧
          t'.inventory.rat = t.inventory.rat + delta.rat ∧
          t'.date = t.date ∧ t'.weight = t.weight ∧ t'.price = t.price) ∧
    (∀ (q : LotQueue) (delta : Amount) (init : List Lot) (t : Lot),
        q.order = .lifo →
        List.Sorted (lotLE .lifo) q.lot →
        q.lot = init ++ [t] →
        (∀ l ∈ init, ¬ (l.date = t.date ∧ l.weight = t.weight)) →
        delta.rat < 0 →
        (∀ l ∈ q.lot, WFLot delta.asset l) →
        -delta.rat < t.inventory.rat →
        (∀ l ∈ init, l.date < t.date ∨ (t.date = l.date ∧ l.weight < t.weight)) ∧
        ∃ t' a b, q.Sell delta = .ok (init ++ [t']) [⟨t', a, b⟩] ∧
          a.rat = -delta.rat ∧
          t'.inventory.rat = t.inventory.rat + delta.rat ∧
          t'.date = t.date ∧ t'.weight = t.weight ∧ t'.price = t.price) := by
  constructor
  · intro q delta init t hord hsort hq hkeys hd hwf hsmall
    constructor
    · intro l hl
      have hrel : lotLE .fifo l t := by
        rw [hq] at hsort
        have := (List.pairwise_append.mp hsort).2.2 l hl t (List.mem_singleton_self t)
        exact this
      have hne := hkeys l hl
      simp only [lotLE, lotLess] at hrel
      by_cases hdate : t.date = l.date
      · right
        refine ⟨hdate, ?_⟩
        rcases Nat.lt_trichotomy t.weight l.weight with h | h | h
        · exact h
        · exact absurd ⟨hdate.symm, h.symm⟩ hne
        · exact absurd (Or.inr ⟨hdate, h⟩) hrel
      · left
        rcases lt_trichotomy t.date l.date with h | h | h
        · exact h
        · exact absurd h hdate
        · exact absurd (Or.inl h) hrel
    · exact LotQueue.sell_small_pops_tail hq hd hwf hsmall
  · intro q delta init t hord hsort hq hkeys hd hwf hsmall
    constructor
    · intro l hl
      have hrel : lotLE .lifo l t := by
        rw [hq] at hsort
        have := (List.pairwise_append.mp hsort).2.2 l hl t (List.mem_singleton_self t)
        exact this
      have hne := hkeys l hl
      simp only [lotLE, lotLess] at hrel
      by_cases hdate : t.date = l.date
      · right
        refine ⟨hdate, ?_⟩
        rcases Nat.lt_trichotomy l.weight t.weight with h | h | h
        · exact h
        · exact absurd ⟨hdate.symm, h⟩ hne
        · exact absurd (Or.inr ⟨hdate, h⟩) hrel
      · left
        rcases lt_trichotomy l.date t.date with h | h | h
        · exact h
        · exact absurd h.symm hdate
        · exact absurd (Or.inl h) hrel
    · exact LotQueue.sell_small_pops_tail hq hd hwf hsmall

/-- Witness for C3 under FIFO: the queue `[lotB, lotA]` (sorted later-first)
sells 4 ABC out of `lotA`, the strictly earliest lot, leaving `lotB` alone. -/
theorem claim_C3_consumption_order_witness :
    (∀ l ∈ [lotB], lotA.date < l.date ∨ (lotA.date = l.date ∧ lotA.weight < l.weight)) ∧
    ∃ t' a b, qBA.Sell ⟨"ABC", -4⟩ = .ok ([lotB] ++ [t']) [⟨t', a, b⟩] ∧
      a.rat = -(Amount.rat ⟨"ABC", -4⟩) ∧
      t'.inventory.rat = lotA.inventory.rat + (Amount.rat ⟨"ABC", -4⟩) ∧
      t'.date = lotA.date ∧ t'.weight = lotA.weight ∧ t'.price = lotA.price :=
  claim_C3_consumption_order.1 qBA ⟨"ABC", -4⟩ [lotB] lotA rfl (by decide) rfl
    (by decide) (by norm_num) (by decide) (by norm_num [lotA])

/-- Counterexample to C5 as stated: on `-3 ABC @ 2 USD` the derived cost is
`price * delta = -6 USD`, not `price * |delta| = 6 USD`; and on a split
with a cost but neither price nor delta, `Cost()` succeeds instead of
failing. -/
theorem claim_C5_counterexample :
    (splitSellC5.cost = none ∧ splitSellC5.price = some ⟨"USD", 2⟩ ∧
      splitSellC5.delta = some ⟨"ABC", -3⟩ ∧
      splitSellC5.Cost = some ⟨"USD", -6⟩ ∧
      ∀ c, splitSellC5.Cost = some c → c.rat ≠ (2 : ℚ) * |(-3 : ℚ)|) ∧
    (splitCostOnlyC5.price = none ∧ splitCostOnlyC5.delta = none ∧
      splitCostOnlyC5.Cost = some ⟨"USD", 5⟩) := by
  refine ⟨⟨rfl, rfl, rfl, ?_, ?_⟩, rfl, rfl, rfl⟩
  · show Split.Cost splitSellC5 = some ⟨"USD", -6⟩
    rw [Split.Cost]
    norm_num [splitSellC5]
  · intro c hc
    rw [Split.Cost] at hc
    simp only [splitSellC5] at hc
    injection hc with hc
    subst hc
    norm_num

/-- C5 as amended: with cost absent but price and delta present, `Cost()`
returns the signed product `price * delta` (which equals `price * |delta|`
exactly when the delta is non-negative); with price absent but cost and a
nonzero delta present, `Price()` returns `cost / delta`; and when both
price and cost are absent, `Price()` and `Cost()` both fail with the
invalid-split panic. -/
theorem claim_C5_price_cost_derivation (s : Split) :
    (∀ p d, s.cost = none → s.price = some p → s.delta = some d →
        s.Cost = some ⟨p.asset, p.rat * d.rat⟩ ∧
        (0 ≤ d.rat → s.Cost = some ⟨p.asset, p.rat * |d.rat|⟩)) ∧
    (∀ c d, s.price = none → s.cost = some c → s.delta = some d → d.rat ≠ 0 →
        s.Price = some ⟨c.asset, c.rat / d.rat⟩) ∧
    (s.price = none → s.cost = none → s.Price = none ∧ s.Cost = none) := by
  refine ⟨?_, ?_, ?_⟩
  · intro p d hc hp hd
    rw [Split.Cost, hc, hp, hd]
    refine ⟨rfl, fun hnn => ?_⟩
    rw [abs_of_nonneg hnn]
  · intro c d hp hc hd hnz
    rw [Split.Price, hp, hc, hd]
    simp [hnz]
  · intro hp hc
    constructor
    · rw [Split.Price, hp, hc]
    · rw [Split.Cost, hc, hp]

/-- Witness for the amended C5 at `3 ABC @ 2 USD` (buy side). -/
theorem claim_C5_price_cost_derivation_witness :
    Split.Cost ⟨"a", some ⟨"ABC", 3⟩, some ⟨"USD", 2⟩, none, "", false, ""⟩ =
        some ⟨"USD", (2 : ℚ) * 3⟩ ∧
      ((0 : ℚ) ≤ 3 →
        Split.Cost ⟨"a", some ⟨"ABC", 3⟩, some ⟨"USD", 2⟩, none, "", false, ""⟩ =
          some ⟨"USD", (2 : ℚ) * |(3 : ℚ)|⟩) :=
  (claim_C5_price_cost_derivation
      ⟨"a", some ⟨"ABC", 3⟩, some ⟨"USD", 2⟩, none, "", false, ""⟩).1
    ⟨"USD", 2⟩ ⟨"ABC", 3⟩ rfl rfl rfl

/-- Both disposed-inventory tallies are non-negative. -/
theorem contrib_nonneg (longOf : Lot → Bool) (events : List SellEvent) :
    0 ≤ longContrib longOf events ∧ 0 ≤ shortContrib longOf events := by
  constructor <;>
  · apply List.sum_nonneg
    intro x hx
    simp only [List.mem_map] at hx
    obtain ⟨e, _, he⟩ := hx
    subst he
    split_ifs with h
    · linarith [h.1]
    · exact le_refl 0

/-- With at least one disposal, the disposed-inventory total is positive. -/
theorem contrib_pos (longOf : Lot → Bool) {events : List SellEvent}
    (h : ∃ e ∈ events, 0 < e.inventory.rat) :
    0 < shortContrib longOf events + longContrib longOf events := by
  induction events with
  | nil => simp at h
  | cons e rest ih =>
    rw [longContrib, shortContrib] at *
    simp only [List.map_cons, List.sum_cons]
    rcases h with ⟨e', he', hpos⟩
    rcases List.mem_cons.mp he' with he'' | he''
    · subst he''
      have hnn := contrib_nonneg longOf rest
      rw [longContrib, shortContrib] at hnn
      by_cases hl : longOf e'.lot = true <;> split_ifs <;> simp_all <;> linarith
    · have := ih ⟨e', he'', hpos⟩
      have t1 : (0:ℚ) ≤ if 0 < e.inventory.rat ∧ longOf e.lot then e.inventory.rat else 0 := by
        split_ifs with hc
        · linarith [hc.1]
        · exact le_refl 0
      have t2 : (0:ℚ) ≤ if 0 < e.inventory.rat ∧ ¬ longOf e.lot then e.inventory.rat else 0 := by
        split_ifs with hc
        · linarith [hc.1]
        · exact le_refl 0
      linarith

/-- `printedSum` of a cons. -/
theorem printedSum_cons (prec : Asset → Nat) (e : SellEvent) (es : List SellEvent) :
    printedSum prec (e :: es) =
      rnd (prec e.basis.asset) e.basis.rat + printedSum prec es := by
  simp [printedSum]

/-- `longContrib` of a cons. -/
theorem longContrib_cons (longOf : Lot → Bool) (e : SellEvent) (es : List SellEvent) :
    longContrib longOf (e :: es) =
      (if 0 < e.inventory.rat ∧ longOf e.lot then e.inventory.rat else 0) +
        longContrib longOf es := by
  simp [longContrib]

/-- `shortContrib` of a cons. -/
theorem shortContrib_cons (longOf : Lot → Bool) (e : SellEvent) (es : List SellEvent) :
    shortContrib longOf (e :: es) =
      (if 0 < e.inventory.rat ∧ ¬ longOf e.lot then e.inventory.rat else 0) +
        shortContrib longOf es := by
  simp [shortContrib]

/-- Characterization of the tally loop on well-formed events: it cannot
panic, the total gain accrues every rounded basis, and the inventory
buckets exist exactly from the first disposal on, accumulating the long-
and short-classified disposed amounts. -/
theorem gainLoop_spec (prec : Asset → Nat) (longOf : Lot → Bool) (A : Asset) :
    ∀ (events : List SellEvent) (st : GainState),
      (∀ e ∈ events, e.inventory.rat ≠ 0) →
      (∀ e ∈ events, 0 < e.inventory.rat → e.inventory.asset = A) →
      (∀ li si, st.buckets = some (li, si) → li.asset = A) →
      ∃ st', gainLoop prec longOf events st = some st' ∧
        st'.totalGain = st.totalGain + printedSum prec events ∧
        (∀ li si, st'.buckets = some (li, si) → li.asset = A) ∧
        (∀ li si, st.buckets = some (li, si) →
            ∃ li' si', st'.buckets = some (li', si') ∧
              li'.rat = li.rat + longContrib longOf events ∧
              si'.rat = si.rat + shortContrib longOf events) ∧
        (st.buckets = none →
            ((¬ ∃ e ∈ events, 0 < e.inventory.rat) ∧ st'.buckets = none) ∨
            ((∃ e ∈ events, 0 < e.inventory.rat) ∧
              ∃ li' si', st'.buckets = some (li', si') ∧
                li'.rat = longContrib longOf events ∧
                si'.rat = shortContrib longOf events)) := by
  intro events
  induction events with
  | nil =>
    intro st h1 h2 hA
    refine ⟨st, by rw [gainLoop], by simp [printedSum], hA, ?_, ?_⟩
    · intro li si hb
      exact ⟨li, si, hb, by simp [longContrib], by simp [shortContrib]⟩
    · intro hb
      left
      exact ⟨by simp, hb⟩
  | cons e rest ih =>
    intro st h1 h2 hA
    have hne := h1 e (List.mem_cons_self e rest)
    have h1r : ∀ x ∈ rest, x.inventory.rat ≠ 0 :=
      fun x hx => h1 x (List.mem_cons_of_mem e hx)
    have h2r : ∀ x ∈ rest, 0 < x.inventory.rat → x.inventory.asset = A :=
      fun x hx => h2 x (List.mem_cons_of_mem e hx)
    by_cases hd : 0 < e.inventory.rat
    · -- disposal event
      have heA : e.inventory.asset = A := h2 e (List.mem_cons_self e rest) hd
      rcases hb : st.buckets with _ | ⟨li, si⟩
      · -- buckets not yet allocated: first disposal creates them
        have hstep : gainLoop prec longOf (e :: rest) st =
            gainLoop prec longOf rest
              { buckets := some
                  (if longOf e.lot then
                      ⟨e.inventory.asset, (0:ℚ) + e.inventory.rat⟩
                    else e.inventory.ZeroClone,
                   if longOf e.lot then e.inventory.ZeroClone
                    else ⟨e.inventory.asset, (0:ℚ) + e.inventory.rat⟩)
                longBasis := if longOf e.lot then
                    st.longBasis + rnd (prec e.basis.asset) e.basis.rat
                  else st.longBasis
                shortBasis := if longOf e.lot then st.shortBasis
                  else st.shortBasis + rnd (prec e.basis.asset) e.basis.rat
                totalGain := st.totalGain + rnd (prec e.basis.asset) e.basis.rat } := by
          rw [gainLoop, if_neg hne, if_pos hd]
          simp only [hb, Amount.ZeroClone]
          rw [if_neg (by simp)]
        have hA1 : ∀ li' si',
            (some
              (if longOf e.lot then
                  (⟨e.inventory.asset, (0:ℚ) + e.inventory.rat⟩ : Amount)
                else e.inventory.ZeroClone,
               if longOf e.lot then e.inventory.ZeroClone
                else ⟨e.inventory.asset, (0:ℚ) + e.inventory.rat⟩) :
              Option (Amount × Amount)) = some (li', si') → li'.asset = A := by
          intro li' si' h
          injection h with h
          rw [← heA]
          by_cases hl : longOf e.lot <;> simp [hl] at h <;>
            rw [← h.1] <;> simp [Amount.ZeroClone]
        obtain ⟨st', hrec, htot, hA', hsome', hnone'⟩ :=
          ih
            ⟨some
                (if longOf e.lot then
                    ⟨e.inventory.asset, (0:ℚ) + e.inventory.rat⟩
                  else e.inventory.ZeroClone,
                 if longOf e.lot then e.inventory.ZeroClone
                  else ⟨e.inventory.asset, (0:ℚ) + e.inventory.rat⟩),
              (if longOf e.lot then
                  st.longBasis + rnd (prec e.basis.asset) e.basis.rat
                else st.longBasis),
              (if longOf e.lot then st.shortBasis
                else st.shortBasis + rnd (prec e.basis.asset) e.basis.rat),
              st.totalGain + rnd (prec e.basis.asset) e.basis.rat⟩
            h1r h2r hA1
        refine ⟨st', by rw [hstep]; exact hrec, ?_, hA', ?_, ?_⟩
        · rw [htot, printedSum_cons]
          simp only
          ring
        · intro li' si' hcon
          exact Option.noConfusion hcon
        · intro _
          right
          refine ⟨⟨e, List.mem_cons_self e rest, hd⟩, ?_⟩
          obtain ⟨li', si', hb', hl', hs'⟩ := hsome' _ _ rfl
          refine ⟨li', si', hb', ?_, ?_⟩
          · rw [hl', longContrib_cons]
            by_cases hl : longOf e.lot <;>
              simp [hl, hd, Amount.ZeroClone]
          · rw [hs', shortContrib_cons]
            by_cases hl : longOf e.lot <;>
              simp [hl, hd, Amount.ZeroClone]
      · -- buckets already allocated
        have hliA : li.asset = A := hA li si hb
        have hstep : gainLoop prec longOf (e :: rest) st =
            gainLoop prec longOf rest
              { buckets := some
                  (if longOf e.lot then ⟨li.asset, li.rat + e.inventory.rat⟩
                    else li,
                   if longOf e.lot then si
                    else ⟨si.asset, si.rat + e.inventory.rat⟩)
                longBasis := if longOf e.lot then
                    st.longBasis + rnd (prec e.basis.asset) e.basis.rat
                  else st.longBasis
                shortBasis := if longOf e.lot then st.shortBasis
                  else st.shortBasis + rnd (prec e.basis.asset) e.basis.rat
                totalGain := st.totalGain + rnd (prec e.basis.asset) e.basis.rat } := by
          rw [gainLoop, if_neg hne, if_pos hd]
          simp only [hb]
          rw [if_neg (by rw [hliA, heA]; simp)]
        have hA1 : ∀ li' si',
            (some
              (if longOf e.lot then (⟨li.asset, li.rat + e.inventory.rat⟩ : Amount)
                else li,
               if longOf e.lot then si
                else (⟨si.asset, si.rat + e.inventory.rat⟩ : Amount)) :
              Option (Amount × Amount)) = some (li', si') → li'.asset = A := by
          intro li' si' h
          injection h with h
          by_cases hl : longOf e.lot <;> simp [hl] at h <;> rw [← h.1] <;>
            simp [hliA]
        obtain ⟨st', hrec, htot, hA', hsome', hnone'⟩ :=
          ih
            ⟨some
                (if longOf e.lot then ⟨li.asset, li.rat + e.inventory.rat⟩
                  else li,
                 if longOf e.lot then si
                  else ⟨si.asset, si.rat + e.inventory.rat⟩),
              (if longOf e.lot then
                  st.longBasis + rnd (prec e.basis.asset) e.basis.rat
                else st.longBasis),
              (if longOf e.lot then st.shortBasis
                else st.shortBasis + rnd (prec e.basis.asset) e.basis.rat),
              st.totalGain + rnd (prec e.basis.asset) e.basis.rat⟩
            h1r h2r hA1
        refine ⟨st', by rw [hstep]; exact hrec, ?_, hA', ?_, ?_⟩
        · rw [htot, printedSum_cons]
          simp only
          ring
        · intro li0 si0 hcon
          injection hcon with hcon
          injection hcon with hcon1 hcon2
          subst hcon1; subst hcon2
          obtain ⟨li', si', hb', hl', hs'⟩ := hsome' _ _ rfl
          refine ⟨li', si', hb', ?_, ?_⟩
          · rw [hl', longContrib_cons]
            by_cases hl : longOf e.lot <;> simp [hl, hd] <;> ring
          · rw [hs', shortContrib_cons]
            by_cases hl : longOf e.lot <;> simp [hl, hd] <;> ring
        · intro hcon
          exact Option.noConfusion hcon
    · -- lot-creation event (negative inventory)
      have hstep : gainLoop prec longOf (e :: rest) st =
          gainLoop prec longOf rest
            { st with totalGain :=
                st.totalGain + rnd (prec e.basis.asset) e.basis.rat } := by
        rw [gainLoop, if_neg hne, if_neg hd]
      have hA1 : ∀ li si,
          ({ st with totalGain :=
              st.totalGain + rnd (prec e.basis.asset) e.basis.rat} :
            GainState).buckets = some (li, si) → li.asset = A := hA
      obtain ⟨st', hrec, htot, hA', hsome', hnone'⟩ := ih _ h1r h2r hA1
      refine ⟨st', by rw [hstep]; exact hrec, ?_, hA', ?_, ?_⟩
      · rw [htot, printedSum_cons]
        simp only
        ring
      · intro li si hb
        obtain ⟨li', si', hb', hl', hs'⟩ := hsome' li si hb
        refine ⟨li', si', hb', ?_, ?_⟩
        · rw [hl', longContrib_cons]
          simp [hd]
        · rw [hs', shortContrib_cons]
          simp [hd]
      · intro hb
        rcases hnone' hb with ⟨hnd, hb'⟩ | ⟨hex, li', si', hb', hl', hs'⟩
        · left
          refine ⟨?_, hb'⟩
          rintro ⟨x, hx, hxpos⟩
          rcases List.mem_cons.mp hx with hx' | hx'
          · subst hx'
            exact hd hxpos
          · exact hnd ⟨x, hx', hxpos⟩
        · right
          obtain ⟨x, hx, hxp⟩ := hex
          refine ⟨⟨x, List.mem_cons_of_mem e hx, hxp⟩, li', si', hb', ?_, ?_⟩
          · rw [longContrib_cons]
            simp only [hd, false_and, if_neg, ite_false, zero_add]
            simpa using hl'
          · rw [shortContrib_cons]
            simp only [hd, false_and, if_neg, ite_false, zero_add]
            simpa using hs'

/-- C4: whenever a transaction has at least one lot disposal, the emitted
gains satisfy `shortGain = totalGain * (shortInventory / totalDisposed)`
and `longGain = totalGain - shortGain`, so `shortGain + longGain =
totalGain` exactly; with no disposal there is no gain computation and no
posting.  Stated for every holding-period classifier `longOf` (the
`Elapsed`-based classifier lives outside the verified sources). -/
theorem claim_C4_gain_apportionment (prec : Asset → Nat) (base A : Asset)
    (isTrade : Bool) (longOf : Lot → Bool) (splits : List Split)
    (events : List SellEvent)
    (h1 : ∀ e ∈ events, e.inventory.rat ≠ 0)
    (h2 : ∀ e ∈ events, 0 < e.inventory.rat → e.inventory.asset = A) :
    ((∃ e ∈ events, 0 < e.inventory.rat) →
      ∃ sg lg,
        tallyGains prec base isTrade longOf splits events = some (some (sg, lg)) ∧
        sg = totalGainOf prec base isTrade splits events *
          (shortContrib longOf events /
            (shortContrib longOf events + longContrib longOf events)) ∧
        lg = totalGainOf prec base isTrade splits events - sg ∧
        sg + lg = totalGainOf prec base isTrade splits events) ∧
    ((¬ ∃ e ∈ events, 0 < e.inventory.rat) →
      tallyGains prec base isTrade longOf splits events = some none) := by
  obtain ⟨st', hrec, htot, hA', hsome', hnone'⟩ :=
    gainLoop_spec prec longOf A events
      ⟨none, 0, 0, baseDeltaGain prec base isTrade splits⟩ h1 h2
      (fun li si h => Option.noConfusion h)
  have htot' : st'.totalGain = totalGainOf prec base isTrade splits events := by
    rw [htot, totalGainOf]
  constructor
  · intro hex
    rcases hnone' rfl with ⟨hnd, _⟩ | ⟨_, li', si', hb', hl', hs'⟩
    · exact absurd hex hnd
    · have hpos := contrib_pos longOf hex
      have hsum : si'.rat + li'.rat =
          shortContrib longOf events + longContrib longOf events := by
        rw [hl', hs']
      have heval : tallyGains prec base isTrade longOf splits events =
          some (some (st'.totalGain * (si'.rat / (si'.rat + li'.rat)),
            st'.totalGain - st'.totalGain * (si'.rat / (si'.rat + li'.rat)))) := by
        rw [tallyGains, hrec]
        simp only [hb']
        rw [if_neg (by rw [hsum]; exact ne_of_gt hpos)]
      refine ⟨_, _, heval, ?_, ?_, by rw [← htot']; ring⟩
      · rw [htot', hl', hs']
      · rw [htot']
  · intro hnd
    rcases hnone' rfl with ⟨_, hbnone⟩ | ⟨hex, _⟩
    · rw [tallyGains, hrec]
      simp only [hbnone]
    · exact absurd hex hnd

/-- Witness for C4: a single short-term disposal. -/
theorem claim_C4_gain_apportionment_witness :
    ∃ sg lg,
      tallyGains (fun _ => 6) "USD" true (fun _ => false) [] [eventC4] =
        some (some (sg, lg)) ∧
      sg = totalGainOf (fun _ => 6) "USD" true [] [eventC4] *
        (shortContrib (fun _ => false) [eventC4] /
          (shortContrib (fun _ => false) [eventC4] +
            longContrib (fun _ => false) [eventC4])) ∧
      lg = totalGainOf (fun _ => 6) "USD" true [] [eventC4] - sg ∧
      sg + lg = totalGainOf (fun _ => 6) "USD" true [] [eventC4] :=
  (claim_C4_gain_apportionment (fun _ => 6) "USD" "ABC" true (fun _ => false)
      [] [eventC4] (by decide) (by decide)).1
    ⟨eventC4, List.mem_singleton_self eventC4, by decide⟩

/-- Evaluation of the C7 move fixture: the full run of `consumeMoves` on
one lot moved from qualifier "A" to qualifier "B". -/
theorem moveC7_eval :
    consumeMovesAsset "USD" "ABC" .fifo [("A", qA)] [("A", -10), ("B", 10)] 1 =
      some ([("A", ⟨[], .fifo⟩), ("B", ⟨[lotC7new], .fifo⟩)], 3,
        [⟨lotA0, ⟨"ABC", 10⟩, ⟨"USD", -20⟩⟩,
         ⟨lotC7new, ⟨"ABC", -10⟩, ⟨"USD", 20⟩⟩]) := by
  have s1 : ¬ ("ABC" : String) = "USD" := by decide
  have s2 : (("A" : String) == "A") = true := by decide
  have s3 : (("A" : String) == "B") = false := by decide
  have s4 : ("Lot:" ++ "B" : String) = "Lot:B" := by decide
  norm_num [consumeMovesAsset, movePass1, movePass2, movePass1Events,
    movePass2Events, sellWrap, buyWrap, lookupQueue, storeQueue, NewLot,
    LotQueue.Sell, LotQueue.Buy, LotQueue.sanityOK, sellLoop, Lot.Sell,
    Amount.Compatible, Amount.ZeroClone, Amount.NegClone, lotA, lotA0, qA,
    tmpLotC7, lotC7new, List.insertionSort, List.orderedInsert, List.find?,
    s1, s2, s3, s4]

/-- Counterexample to C7 as stated: moving the full 10 ABC of `lotA`
(weight 1) from qualifier "A" to qualifier "B" creates a destination lot
with the same date and per-unit basis but weight 2 - the temporary lot's
freshly drawn counter value, not the source lot's weight. -/
theorem claim_C7_counterexample :
    consumeMovesAsset "USD" "ABC" .fifo [("A", qA)] [("A", -10), ("B", 10)] 1 =
      some ([("A", ⟨[], .fifo⟩), ("B", ⟨[lotC7new], .fifo⟩)], 3,
        [⟨lotA0, ⟨"ABC", 10⟩, ⟨"USD", -20⟩⟩,
         ⟨lotC7new, ⟨"ABC", -10⟩, ⟨"USD", 20⟩⟩]) ∧
    lotC7new.date = lotA.date ∧ lotC7new.price = lotA.price ∧
    lotC7new.weight = 2 ∧ lotA.weight = 1 ∧ lotC7new.weight ≠ lotA.weight :=
  ⟨moveC7_eval, rfl, rfl, rfl, rfl, by decide⟩

/-- Inversion for `NewLot`. -/
theorem NewLot_eq_some {n : String} {d : Int} {inv basis : Amount} {w : Nat}
    {nl : Lot} {w' : Nat} (h : NewLot n d inv basis w = some (nl, w')) :
    nl = ⟨n, d, w + 1, inv, inv, basis, basis.rat / inv.rat⟩ ∧ w' = w + 1 ∧
    0 < inv.rat ∧ 0 ≤ basis.rat := by
  simp only [NewLot] at h
  split_ifs at h with h1 h2 h3
  injection h with h
  injection h with hl hw
  exact ⟨hl.symm, hw.symm, lt_of_not_ge h1, le_of_not_lt h2⟩

/-- `(date, price)` provenance through `LotQueue.Sell`: surviving lots and
event lots alike keep the date and unit price of a lot of the queue, and
each event consumed a positive amount whose basis is its lot's price-
weighted amount, negated. -/
theorem LotQueue.sell_provenance {q : LotQueue} {delta : Amount}
    {lots : List Lot} {es : List SellEvent}
    (h : q.Sell delta = .ok lots es ∨ q.Sell delta = .insufficient lots es) :
    (∀ x ∈ lots, ∃ l, l ∈ q.lot ∧ x.date = l.date ∧ x.price = l.price) ∧
    (∀ e ∈ es, ∃ l, l ∈ q.lot ∧ e.lot.date = l.date ∧ e.lot.price = l.price) ∧
    (∀ e ∈ es, 0 < e.inventory.rat ∧
      e.basis.rat = -(e.lot.price * e.inventory.rat)) := by
  rw [LotQueue.Sell] at h
  rcases h with h | h <;> split_ifs at h with hs <;>
    rcases hL : sellLoop delta.asset q.lot.reverse delta.rat with
      ⟨q2, es2⟩ | ⟨q2, es2⟩ | _ <;> simp only [hL] at h <;>
    first
    | exact absurd h (by exact fun hc => SellResult.noConfusion hc)
    | skip
  · injection h with hq he
    subst hq; subst he
    obtain ⟨hQ, hE⟩ := sellLoop_provenance (Or.inl hL)
    refine ⟨?_, ?_, ?_⟩
    · intro x hx
      obtain ⟨l, hl, h1, h2, h3, _⟩ := hQ x (List.mem_reverse.mp hx)
      exact ⟨l, List.mem_reverse.mp hl, h1, h3⟩
    · intro e he
      obtain ⟨l, hl, h1, h2, h3, _⟩ := hE e he
      exact ⟨l, List.mem_reverse.mp hl, h1, h3⟩
    · intro e he
      obtain ⟨l, hl, _, _, hp, _, hpos, _, hbr, _⟩ := hE e he
      exact ⟨hpos, by rw [hbr, hp]⟩
  · injection h with hq he
    subst hq; subst he
    obtain ⟨hQ, hE⟩ := sellLoop_provenance (Or.inr hL)
    refine ⟨?_, ?_, ?_⟩
    · intro x hx
      obtain ⟨l, hl, h1, h2, h3, _⟩ := hQ x (List.mem_reverse.mp hx)
      exact ⟨l, List.mem_reverse.mp hl, h1, h3⟩
    · intro e he
      obtain ⟨l, hl, h1, h2, h3, _⟩ := hE e he
      exact ⟨l, List.mem_reverse.mp hl, h1, h3⟩
    · intro e he
      obtain ⟨l, hl, _, _, hp, _, hpos, _, hbr, _⟩ := hE e he
      exact ⟨hpos, by rw [hbr, hp]⟩

/-- Membership through `lookupQueue`. -/
theorem lookupQueue_mem {led : Ledger} {qual : String} {ord : Order} {x : Lot}
    (hx : x ∈ (lookupQueue led qual ord).lot) :
    ∃ q, (qual, q) ∈ led ∧ x ∈ q.lot := by
  rw [lookupQueue] at hx
  rcases hf : led.find? (fun p => p.1 == qual) with _ | p <;> rw [hf] at hx
  · simp at hx
  · have hmem := List.mem_of_find?_eq_some hf
    have hq := List.find?_some hf
    simp only [beq_iff_eq] at hq
    refine ⟨p.2, ?_, hx⟩
    rw [← hq]
    exact hmem

/-- Membership through `storeQueue`: an entry is an old one or holds the
stored queue. -/
theorem storeQueue_mem {led : Ledger} {qual : String} {q : LotQueue}
    {p : String × LotQueue} (hp : p ∈ storeQueue led qual q) :
    p ∈ led ∨ p.2 = q := by
  rw [storeQueue] at hp
  split_ifs at hp with hf
  · rcases List.mem_map.mp hp with ⟨p0, hp0, heq⟩
    by_cases hc : (p0.1 == qual) = true
    · rw [if_pos hc] at heq
      right
      rw [← heq]
    · rw [if_neg hc] at heq
      left
      rw [← heq]
      exact hp0
  · rcases List.mem_append.mp hp with h | h
    · exact Or.inl h
    · right
      rw [List.mem_singleton.mp h]

/-- The initial ledger is sourced from itself. -/
theorem ledDP_refl (led : Ledger) : ledDP led led :=
  fun p hp l hl => ⟨p.1, p.2, l, hp, hl, rfl, rfl⟩

/-- `sellWrap` keeps the ledger sourced and yields sourced events. -/
theorem sellWrap_dp {led0 : Ledger} {base : Asset} {ord : Order}
    {led : Ledger} {qual : String} {delta : Amount}
    {es : List SellEvent} {led' : Ledger}
    (h : sellWrap base ord led qual delta = some (es, led'))
    (hdp : ledDP led0 led) :
    ledDP led0 led' ∧
    ∀ e ∈ es, dpSourced led0 e.lot ∧ 0 < e.inventory.rat ∧
      e.basis.rat = -(e.lot.price * e.inventory.rat) := by
  simp only [sellWrap] at h
  split_ifs at h with h1 h2
  rcases hS : (lookupQueue led qual ord).Sell delta with ⟨lots, es2⟩ | _ | _ <;>
    rw [hS] at h <;> dsimp only at h
  · injection h with h
    injection h with he hl
    subst he; subst hl
    obtain ⟨hQ, hE, hB⟩ := LotQueue.sell_provenance (Or.inl hS)
    have hqdp : ∀ x ∈ (lookupQueue led qual ord).lot, dpSourced led0 x := by
      intro x hx
      obtain ⟨q, hq, hxq⟩ := lookupQueue_mem hx
      exact hdp (qual, q) hq x hxq
    constructor
    · intro p hp l hl
      rcases storeQueue_mem hp with hp' | hp'
      · exact hdp p hp' l hl
      · rw [hp'] at hl
        obtain ⟨l0, hl0, hd, hpr⟩ := hQ l hl
        obtain ⟨qual1, q1, l1, hm1, hm2, hd1, hp1⟩ := hqdp l0 hl0
        exact ⟨qual1, q1, l1, hm1, hm2, hd.trans hd1, hpr.trans hp1⟩
    · intro e he
      obtain ⟨l0, hl0, hd, hpr⟩ := hE e he
      obtain ⟨qual1, q1, l1, hm1, hm2, hd1, hp1⟩ := hqdp l0 hl0
      exact ⟨⟨qual1, q1, l1, hm1, hm2, hd.trans hd1, hpr.trans hp1⟩,
        (hB e he).1, (hB e he).2⟩
  · exact Option.noConfusion h
  · exact Option.noConfusion h

/-- `buyWrap` keeps the ledger sourced when the bought lot is sourced. -/
theorem buyWrap_dp {led0 : Ledger} {ord : Order} {led : Ledger}
    {qual : String} {l : Lot} {led' : Ledger}
    (h : buyWrap ord led qual l = some led')
    (hdp : ledDP led0 led) (hl : dpSourced led0 l) :
    ledDP led0 led' := by
  rw [buyWrap] at h
  rcases hB : (lookupQueue led qual ord).Buy l with _ | q' <;> rw [hB] at h
  · exact Option.noConfusion h
  · injection h with h
    subst h
    obtain ⟨_, _, hmem, _⟩ := LotQueue.buy_eq_some hB
    intro p hp x hx
    rcases storeQueue_mem hp with hp' | hp'
    · exact hdp p hp' x hx
    · rw [hp'] at hx
      rcases (hmem x).mp hx with hx' | hx'
      · obtain ⟨q, hq, hxq⟩ := lookupQueue_mem hx'
        exact hdp (qual, q) hq x hxq
      · rw [hx']
        exact hl

/-- A temporary/destination lot built by `NewLot` from a sourced sell event
(with the event's basis negated back to a positive cost) is itself
sourced: it inherits the event lot's date, and its computed unit price
equals the event lot's price. -/
theorem newLot_event_dp {led0 : Ledger} {e : SellEvent} {n : String}
    {w w' : Nat} {nl : Lot}
    (h : NewLot n e.lot.date e.inventory e.basis.NegClone w = some (nl, w'))
    (hdp : dpSourced led0 e.lot) (hpos : 0 < e.inventory.rat)
    (hbr : e.basis.rat = -(e.lot.price * e.inventory.rat)) :
    dpSourced led0 nl ∧ nl.date = e.lot.date ∧ nl.price = e.lot.price := by
  obtain ⟨hnl, _, _, _⟩ := NewLot_eq_some h
  have hprice : nl.price = e.lot.price := by
    rw [hnl]
    simp only [Amount.NegClone, hbr]
    field_simp
  have hdate : nl.date = e.lot.date := by rw [hnl]
  obtain ⟨qual1, q1, l1, hm1, hm2, hd1, hp1⟩ := hdp
  exact ⟨⟨qual1, q1, l1, hm1, hm2, hdate.trans hd1, hprice.trans hp1⟩,
    hdate, hprice⟩

/-- Pass 1's inner loop keeps the temporary queue sourced. -/
theorem movePass1Events_dp {led0 : Ledger} :
    ∀ {es : List SellEvent} {tq : LotQueue} {w : Nat} {outs : List SellEvent}
      {tq' : LotQueue} {w' : Nat} {outs' : List SellEvent},
      movePass1Events es (tq, w, outs) = some (tq', w', outs') →
      (∀ e ∈ es, dpSourced led0 e.lot ∧ 0 < e.inventory.rat ∧
        e.basis.rat = -(e.lot.price * e.inventory.rat)) →
      queueDP led0 tq →
      queueDP led0 tq' := by
  intro es
  induction es with
  | nil =>
    intro tq w outs tq' w' outs' h hes hq
    rw [movePass1Events] at h
    injection h with h
    injection h with h1 h
    injection h with h2 h3
    subst h1
    exact hq
  | cons e rest ih =>
    intro tq w outs tq' w' outs' h hes hq
    rw [movePass1Events] at h
    rcases hN : NewLot "tmp" e.lot.date e.inventory e.basis.NegClone w with
      _ | ⟨nl, w1⟩ <;> rw [hN] at h <;> dsimp only at h
    · exact Option.noConfusion h
    · rcases hB : tq.Buy nl with _ | tq1 <;> rw [hB] at h <;> dsimp only at h
      · exact Option.noConfusion h
      · have hed := hes e (List.mem_cons_self e rest)
        have hnl : dpSourced led0 nl :=
          (newLot_event_dp hN hed.1 hed.2.1 hed.2.2).1
        have htq1 : queueDP led0 tq1 := by
          obtain ⟨_, _, hmem, _⟩ := LotQueue.buy_eq_some hB
          intro x hx
          rcases (hmem x).mp hx with hx' | hx'
          · exact hq x hx'
          · rw [hx']
            exact hnl
        exact ih h (fun e' he' => hes e' (List.mem_cons_of_mem e he')) htq1

/-- Pass 1 keeps both the live ledger and the temporary queue sourced. -/
theorem movePass1_dp {led0 : Ledger} {base asset : Asset} {ord : Order} :
    ∀ {moves : List (String × ℚ)} {led : Ledger} {tq : LotQueue} {w : Nat}
      {outs : List SellEvent} {led' : Ledger} {tq' : LotQueue} {w' : Nat}
      {outs' : List SellEvent},
      movePass1 base asset ord moves (led, tq, w, outs) =
        some (led', tq', w', outs') →
      ledDP led0 led → queueDP led0 tq →
      ledDP led0 led' ∧ queueDP led0 tq' := by
  intro moves
  induction moves with
  | nil =>
    intro led tq w outs led' tq' w' outs' h hdp hq
    rw [movePass1] at h
    injection h with h
    injection h with h1 h
    injection h with h2 h
    subst h1; subst h2
    exact ⟨hdp, hq⟩
  | cons mv rest ih =>
    intro led tq w outs led' tq' w' outs' h hdp hq
    rcases mv with ⟨qual, d⟩
    rw [movePass1] at h
    split_ifs at h with h0 hpos
    · exact ih h hdp hq
    · exact ih h hdp hq
    · rcases hS : sellWrap base ord led qual ⟨asset, d⟩ with _ | ⟨es, led1⟩ <;>
        rw [hS] at h <;> dsimp only at h
      · exact Option.noConfusion h
      · obtain ⟨hdp1, hes⟩ := sellWrap_dp hS hdp
        rcases hE : movePass1Events es (tq, w, outs) with _ | ⟨tq1, w1, outs1⟩ <;>
          rw [hE] at h <;> dsimp only at h
        · exact Option.noConfusion h
        · exact ih h hdp1 (movePass1Events_dp hE hes hq)

/-- Pass 2's inner loop keeps the live ledger sourced. -/
theorem movePass2Events_dp {led0 : Ledger} {ord : Order} {qual : String} :
    ∀ {es : List SellEvent} {led : Ledger} {w : Nat} {outs : List SellEvent}
      {led' : Ledger} {w' : Nat} {outs' : List SellEvent},
      movePass2Events ord qual es (led, w, outs) = some (led', w', outs') →
      (∀ e ∈ es, dpSourced led0 e.lot ∧ 0 < e.inventory.rat ∧
        e.basis.rat = -(e.lot.price * e.inventory.rat)) →
      ledDP led0 led →
      ledDP led0 led' := by
  intro es
  induction es with
  | nil =>
    intro led w outs led' w' outs' h hes hdp
    rw [movePass2Events] at h
    injection h with h
    injection h with h1 h
    injection h with h2 h3
    subst h1
    exact hdp
  | cons e rest ih =>
    intro led w outs led' w' outs' h hes hdp
    rw [movePass2Events] at h
    rcases hN : NewLot ("Lot:" ++ qual) e.lot.date e.inventory e.basis.NegClone w with
      _ | ⟨nl, w1⟩ <;> rw [hN] at h <;> dsimp only at h
    · exact Option.noConfusion h
    · have hed := hes e (List.mem_cons_self e rest)
      obtain ⟨hnl, hnld, hnlp⟩ := newLot_event_dp hN hed.1 hed.2.1 hed.2.2
      have hnl' : dpSourced led0 { nl with weight := e.lot.weight } := by
        obtain ⟨qual1, q1, l1, hm1, hm2, hd1, hp1⟩ := hnl
        exact ⟨qual1, q1, l1, hm1, hm2, hd1, hp1⟩
      rcases hB : buyWrap ord led qual { nl with weight := e.lot.weight } with
        _ | led1 <;> rw [hB] at h <;> dsimp only at h
      · exact Option.noConfusion h
      · exact ih h (fun e' he' => hes e' (List.mem_cons_of_mem e he'))
          (buyWrap_dp hB hdp hnl')

/-- Pass 2 keeps the ledger sourced while draining the temporary queue. -/
theorem movePass2_dp {led0 : Ledger} {asset : Asset} {ord : Order} :
    ∀ {moves : List (String × ℚ)} {led : Ledger} {tq : LotQueue} {w : Nat}
      {outs : List SellEvent} {led' : Ledger} {tq' : LotQueue} {w' : Nat}
      {outs' : List SellEvent},
      movePass2 asset ord moves (led, tq, w, outs) =
        some (led', tq', w', outs') →
      ledDP led0 led → queueDP led0 tq →
      ledDP led0 led' := by
  intro moves
  induction moves with
  | nil =>
    intro led tq w outs led' tq' w' outs' h hdp hq
    rw [movePass2] at h
    injection h with h
    injection h with h1 h
    injection h with h2 h
    subst h1
    exact hdp
  | cons mv rest ih =>
    intro led tq w outs led' tq' w' outs' h hdp hq
    rcases mv with ⟨qual, d⟩
    rw [movePass2] at h
    split_ifs at h with h0 hpos
    · exact ih h hdp hq
    · rcases hS : tq.Sell ⟨asset, -d⟩ with ⟨lots, es⟩ | _ | _ <;>
        rw [hS] at h <;> dsimp only at h
      · obtain ⟨hQ, hE, hB⟩ := LotQueue.sell_provenance (Or.inl hS)
        have hes : ∀ e ∈ es, dpSourced led0 e.lot ∧ 0 < e.inventory.rat ∧
            e.basis.rat = -(e.lot.price * e.inventory.rat) := by
          intro e he
          obtain ⟨l0, hl0, hd, hp⟩ := hE e he
          obtain ⟨qual1, q1, l1, hm1, hm2, hd1, hp1⟩ := hq l0 hl0
          exact ⟨⟨qual1, q1, l1, hm1, hm2, hd.trans hd1, hp.trans hp1⟩,
            (hB e he).1, (hB e he).2⟩
        have hq1 : queueDP led0 ⟨lots, tq.order⟩ := by
          intro x hx
          obtain ⟨l0, hl0, hd, hp⟩ := hQ x hx
          obtain ⟨qual1, q1, l1, hm1, hm2, hd1, hp1⟩ := hq l0 hl0
          exact ⟨qual1, q1, l1, hm1, hm2, hd.trans hd1, hp.trans hp1⟩
        rcases hEv : movePass2Events ord qual es (led, w, outs) with
          _ | ⟨led1, w1, outs1⟩ <;> rw [hEv] at h <;> dsimp only at h
        · exact Option.noConfusion h
        · exact ih h (movePass2Events_dp hEv hes hdp) hq1
      · exact Option.noConfusion h
      · exact Option.noConfusion h
    · exact ih h hdp hq

/-- C7 as amended: over a move of one (non-base) asset, every lot present
in the updated ledger - in particular every newly created destination
lot - carries the creation date and the per-unit basis (unit price) of a
lot of the initial ledger (the source lot whose inventory funds it), so a
later disposal's holding-period classification is unchanged by the move;
the destination lot's weight, however, is the temporary lot's freshly
drawn counter value, not the source lot's weight. -/
theorem claim_C7_move_preserves_date_and_basis
    (base asset : Asset) (ord : Order) (led : Ledger)
    (moves : List (String × ℚ)) (w : Nat)
    (led' : Ledger) (w' : Nat) (outs : List SellEvent)
    (h : consumeMovesAsset base asset ord led moves w = some (led', w', outs)) :
    ∀ p ∈ led', ∀ l ∈ p.2.lot,
      ∃ qual0 q0 l0, (qual0, q0) ∈ led ∧ l0 ∈ q0.lot ∧
        l.date = l0.date ∧ l.price = l0.price := by
  rw [consumeMovesAsset] at h
  split_ifs at h with hb
  · injection h with h
    injection h with h1 h
    subst h1
    exact fun p hp l hl => ⟨p.1, p.2, l, hp, hl, rfl, rfl⟩
  · rcases h1 : movePass1 base asset ord moves (led, ⟨[], ord⟩, w, []) with
      _ | ⟨led1, tq, w1, outs1⟩ <;> rw [h1] at h <;> dsimp only at h
    · exact Option.noConfusion h
    · rcases h2 : movePass2 asset ord moves (led1, tq, w1, outs1) with
        _ | ⟨led2, tq2, w2, outs2⟩ <;> rw [h2] at h <;> dsimp only at h
      · exact Option.noConfusion h
      · injection h with h
        injection h with hl h
        subst hl
        obtain ⟨hdp1, hq1⟩ := movePass1_dp h1 (ledDP_refl led)
          (fun l hl => absurd hl (List.not_mem_nil l))
        exact movePass2_dp h2 hdp1 hq1

/-- Witness for the amended C7 on the move fixture. -/
theorem claim_C7_move_preserves_date_and_basis_witness :
    ∃ qual0 q0 l0, (qual0, q0) ∈ ([("A", qA)] : Ledger) ∧ l0 ∈ q0.lot ∧
      lotC7new.date = l0.date ∧ lotC7new.price = l0.price :=
  claim_C7_move_preserves_date_and_basis "USD" "ABC" .fifo [("A", qA)]
    [("A", -10), ("B", 10)] 1 _ 3 _ moveC7_eval
    ("B", ⟨[lotC7new], .fifo⟩)
    (List.mem_cons_of_mem _ (List.mem_cons_self _ _))
    lotC7new (List.mem_cons_self _ _)

/-- C8 is a code bug: buying 100 NEW for 10 XYZ (funded by lots dated 10
and 20) on day 30 creates a lot whose holding-period date field is 30 -
the transaction date - under FIFO and LIFO alike, not the latest consumed
date 20 that the comment in the source (and the spec) promise; the
latest-consumed date (FIFO) or even the earliest-consumed date (LIFO) only
reaches the display name. -/
theorem claim_C8_deferred_date_bug :
    (deferredBuy "USD" .fifo (fun _ => 6) [("C", qC8fifo)] [] "C"
        ⟨"NEW", 100⟩ ⟨"XYZ", 10⟩ 30 2 =
      some (lotC8new, 20, [("C", ⟨[], .fifo⟩)], [("C", ⟨[lotC8new], .fifo⟩)], 3,
        [⟨{ l10C8 with inventory := ⟨"XYZ", 0⟩ }, ⟨"XYZ", 5⟩, ⟨"USD", 0⟩⟩,
         ⟨{ l20C8 with inventory := ⟨"XYZ", 0⟩ }, ⟨"XYZ", 5⟩, ⟨"USD", 0⟩⟩,
         ⟨lotC8new, ⟨"NEW", -100⟩, ⟨"USD", 0⟩⟩])) ∧
    (deferredBuy "USD" .lifo (fun _ => 6) [("C", qC8lifo)] [] "C"
        ⟨"NEW", 100⟩ ⟨"XYZ", 10⟩ 30 2 =
      some (lotC8new, 10, [("C", ⟨[], .lifo⟩)], [("C", ⟨[lotC8new], .lifo⟩)], 3,
        [⟨{ l20C8 with inventory := ⟨"XYZ", 0⟩ }, ⟨"XYZ", 5⟩, ⟨"USD", 0⟩⟩,
         ⟨{ l10C8 with inventory := ⟨"XYZ", 0⟩ }, ⟨"XYZ", 5⟩, ⟨"USD", 0⟩⟩,
         ⟨lotC8new, ⟨"NEW", -100⟩, ⟨"USD", 0⟩⟩])) ∧
    lotC8new.date = 30 ∧
    max l10C8.date l20C8.date = 20 ∧
    lotC8new.date ≠ max l10C8.date l20C8.date ∧
    (10 : Int) ≠ max l10C8.date l20C8.date := by
  have s1 : ¬ ("XYZ" : String) = "USD" := by decide
  have s2 : (("C" : String) == "C") = true := by decide
  have s3 : ("Lot:" ++ "C" : String) = "Lot:C" := by decide
  refine ⟨?_, ?_, rfl, by decide, by decide, by decide⟩ <;>
    norm_num [deferredBuy, sellWrap, buyWrap, lookupQueue, storeQueue, NewLot,
      LotQueue.Sell, LotQueue.Buy, LotQueue.sanityOK, sellLoop, Lot.Sell,
      Amount.Compatible, Amount.ZeroClone, Amount.NegClone, rnd,
      l10C8, l20C8, qC8fifo, qC8lifo, lotC8new,
      List.insertionSort, List.orderedInsert, List.find?, s1, s2, s3]

/-- Characters produced by `digitChar` on a decimal digit are digits. -/
theorem digitChar_isDigit {d : Nat} (h : d < 10) : (digitChar d).isDigit = true := by
  interval_cases d <;> decide

theorem digitChar_toNat {d : Nat} (h : d < 10) : (digitChar d).toNat - 48 = d := by
  interval_cases d <;> decide

theorem isDigit_facts {ch : Char} (h : ch.isDigit = true) :
    ch ≠ '.' ∧ ch ≠ ' ' ∧ ch ≠ '-' ∧ ch ≠ '+' ∧ ch.isWhitespace = false := by
  have h48 : 48 ≤ ch.toNat := by
    simp only [Char.isDigit, decide_eq_true_eq, Bool.and_eq_true] at h
    exact h.1
  refine ⟨?_, ?_, ?_, ?_, ?_⟩
  · rintro rfl; exact absurd h (by decide)
  · rintro rfl; exact absurd h (by decide)
  · rintro rfl; exact absurd h (by decide)
  · rintro rfl; exact absurd h (by decide)
  · by_contra hw
    simp only [Bool.not_eq_false] at hw
    simp only [Char.isWhitespace, Bool.or_eq_true, decide_eq_true_eq] at hw
    rcases hw with ((rfl | rfl) | rfl) | rfl <;> exact absurd h (by decide)

/-- `digitsVal` over the reverse of a mapped digit list is positional
evaluation: it recovers `Nat.ofDigits`. -/
theorem digitsVal_aux (L : List Nat) (hL : ∀ d ∈ L, d < 10) (a : Nat) :
    List.foldl (fun acc ch => acc * 10 + (ch.toNat - 48)) a ((L.map digitChar).reverse)
      = a * 10 ^ L.length + Nat.ofDigits 10 L := by
  induction L generalizing a with
  | nil => simp [Nat.ofDigits]
  | cons d t ih =>
    have hd : d < 10 := hL d (by simp)
    have ht : ∀ x ∈ t, x < 10 := fun x hx => hL x (by simp [hx])
    simp only [List.map_cons, List.reverse_cons, List.foldl_append, List.foldl_cons,
      List.foldl_nil]
    rw [ih ht a, digitChar_toNat hd, Nat.ofDigits_cons, List.length_cons, pow_succ]
    ring

/-- `digitsVal` inverts `natChars`. -/
theorem digitsVal_natChars (n : Nat) : digitsVal (natChars n) = n := by
  by_cases hn : n = 0
  · subst hn; decide
  · have h := digitsVal_aux (Nat.digits 10 n) (fun d hd => Nat.digits_lt_base (by norm_num) hd) 0
    simp only [natChars, if_neg hn, digitsVal]
    rw [h, Nat.ofDigits_digits]
    ring

/-- Every character of `natChars n` is a digit. -/
theorem natChars_digits {n : Nat} {ch : Char} (h : ch ∈ natChars n) : ch.isDigit = true := by
  by_cases hn : n = 0
  · subst hn; simp only [natChars, if_pos rfl] at h; simp at h; subst h; decide
  · simp only [natChars, if_neg hn, List.mem_reverse, List.mem_map] at h
    obtain ⟨d, hd, rfl⟩ := h
    exact digitChar_isDigit (Nat.digits_lt_base (by norm_num) hd)

/-- `natChars` is never empty. -/
theorem natChars_ne_nil (n : Nat) : natChars n ≠ [] := by
  by_cases hn : n = 0
  · subst hn; simp [natChars]
  · simp only [natChars, if_neg hn, ne_eq, List.reverse_eq_nil_iff, List.map_eq_nil_iff]
    exact Nat.digits_ne_nil_iff_ne_zero.mpr hn

/-- Length bound: a natural below `10 ^ p` has at most `p` digits. -/
theorem digits_len_le_of_lt {m p : Nat} (h : m < 10 ^ p) :
    (Nat.digits 10 m).length ≤ p := by
  by_cases hm : m = 0
  · subst hm; simp
  · by_contra hlen
    push_neg at hlen
    have h1 : 10 ^ (p + 1) ≤ 10 ^ (Nat.digits 10 m).length :=
      Nat.pow_le_pow_right (by norm_num) hlen
    have h2 := Nat.base_pow_length_digits_le 10 m (by norm_num) hm
    have h3 : 10 ^ (p + 1) ≤ 10 * m := le_trans h1 h2
    rw [pow_succ] at h3
    omega

theorem natChars_length_le {m p : Nat} (hp : 0 < p) (h : m < 10 ^ p) :
    (natChars m).length ≤ p := by
  by_cases hm : m = 0
  · subst hm; simpa [natChars] using hp
  · simp only [natChars, if_neg hm, List.length_reverse, List.length_map]
    exact digits_len_le_of_lt h

/-- Leading zeros do not change `digitsVal`. -/
theorem digitsVal_replicate_append (k : Nat) (s : List Char) :
    digitsVal (List.replicate k '0' ++ s) = digitsVal s := by
  induction k with
  | zero => simp
  | succ k ih =>
    simp only [digitsVal, List.replicate_succ, List.cons_append, List.foldl_cons] at *
    simpa using ih

theorem digitsVal_replicate (k : Nat) : digitsVal (List.replicate k '0') = 0 := by
  have := digitsVal_replicate_append k []
  simpa [digitsVal] using this

/-- A string free of the separator splits to itself. -/
theorem splitOnChar_not_mem {c : Char} {s : List Char} (h : c ∉ s) :
    splitOnChar c s = [s] := by
  induction s with
  | nil => rfl
  | cons x t ih =>
    have hx : ¬ x = c := fun he => h (he ▸ List.mem_cons_self x t)
    have ht : c ∉ t := fun hm => h (List.mem_cons_of_mem x hm)
    simp only [splitOnChar, ih ht, if_neg hx, List.headI, List.tail]

/-- Splitting around one separator occurrence. -/
theorem splitOnChar_append {c : Char} {a : List Char} (b : List Char) (h : c ∉ a) :
    splitOnChar c (a ++ c :: b) = a :: splitOnChar c b := by
  induction a with
  | nil => simp [splitOnChar]
  | cons x t ih =>
    have hx : ¬ x = c := fun he => h (he ▸ List.mem_cons_self x t)
    have ht : c ∉ t := fun hm => h (List.mem_cons_of_mem x hm)
    have hstep : splitOnChar c (x :: (t ++ c :: b)) =
        if x = c then [] :: splitOnChar c (t ++ c :: b)
        else (x :: (splitOnChar c (t ++ c :: b)).headI) ::
          (splitOnChar c (t ++ c :: b)).tail := rfl
    rw [List.cons_append, hstep, if_neg hx, ih ht]
    simp [List.headI, List.tail]

/-- `trimRightZeros` removes a (maximal) run of trailing zeros. -/
theorem trimRightZeros_spec (s : List Char) :
    ∃ k, s = trimRightZeros s ++ List.replicate k '0' := by
  refine ⟨(s.reverse.takeWhile fun ch => ch = '0').length, ?_⟩
  have h1 : s.reverse.takeWhile (fun ch => ch = '0') =
      List.replicate (s.reverse.takeWhile fun ch => ch = '0').length '0' := by
    rw [List.eq_replicate_iff]
    exact ⟨rfl, fun b hb => by simpa using List.mem_takeWhile_imp hb⟩
  conv_lhs => rw [← s.reverse_reverse,
    ← List.takeWhile_append_dropWhile (fun ch => decide (ch = '0')) s.reverse]
  rw [List.reverse_append, trimRightZeros]
  rw [congrArg List.reverse h1, List.reverse_replicate]

/-- Trimming does not touch a string with non-whitespace ends. -/
theorem trimSpace_id {x z : Char} {m : List Char} (hx : x.isWhitespace = false)
    (hz : z.isWhitespace = false) :
    trimSpace (x :: (m ++ [z])) = x :: (m ++ [z]) := by
  have h1 : List.dropWhile (fun ch => ch.isWhitespace) (x :: (m ++ [z]))
      = x :: (m ++ [z]) := by
    rw [List.dropWhile_cons, hx]; simp
  have h2 : (x :: (m ++ [z])).reverse = z :: (m.reverse ++ [x]) := by simp
  have h3 : List.dropWhile (fun ch => ch.isWhitespace) (z :: (m.reverse ++ [x]))
      = z :: (m.reverse ++ [x]) := by
    rw [List.dropWhile_cons, hz]; simp
  rw [trimSpace, h1, h2, h3]
  simp

/-- The division-with-remainder rounding of `big.Rat.FloatString` is
floor of the scaled magnitude plus one half (nearest, ties away from
zero). -/
theorem ratRound_eq_floor (q : ℚ) (p : Nat) :
    (ratRound q p : ℤ) = ⌊|q| * 10 ^ p + 1 / 2⌋ := by
  have hden : (0 : ℚ) < (q.den : ℚ) := by exact_mod_cast q.pos
  have hden0 : (q.den : ℚ) ≠ 0 := ne_of_gt hden
  have habs : |q| = (q.num.natAbs : ℚ) / (q.den : ℚ) := by
    conv_lhs => rw [← Rat.num_div_den q]
    rw [abs_div, abs_of_pos hden, Int.cast_natAbs, Int.cast_abs]
  set nAbs := q.num.natAbs with hnAbs
  set den := q.den with hden2
  set K := nAbs / den * 10 ^ p + nAbs % den * 10 ^ p / den with hK
  set r3 := nAbs % den * 10 ^ p % den with hr3
  have hKey : K * den + r3 = nAbs * 10 ^ p := by
    have h2 := Nat.div_add_mod (nAbs % den * 10 ^ p) den
    have h1 := Nat.div_add_mod nAbs den
    calc K * den + r3
        = den * (nAbs / den) * 10 ^ p +
          (den * (nAbs % den * 10 ^ p / den) + nAbs % den * 10 ^ p % den) := by
          rw [hK]; ring
      _ = den * (nAbs / den) * 10 ^ p + nAbs % den * 10 ^ p := by rw [h2]
      _ = (den * (nAbs / den) + nAbs % den) * 10 ^ p := by ring
      _ = nAbs * 10 ^ p := by rw [h1]
  have hr3lt : r3 < den := Nat.mod_lt _ q.pos
  have hmag : |q| * 10 ^ p = (K : ℚ) + (r3 : ℚ) / (den : ℚ) := by
    rw [habs, div_mul_eq_mul_div]
    have h10 : (nAbs : ℚ) * 10 ^ p = ((nAbs * 10 ^ p : ℕ) : ℚ) := by push_cast; ring
    have hq : ((nAbs * 10 ^ p : ℕ) : ℚ) = ((K * den + r3 : ℕ) : ℚ) := by
      exact_mod_cast congrArg (fun m : ℕ => (m : ℚ)) hKey.symm
    rw [h10, hq]
    push_cast
    field_simp
  have hfrac : ⌊(r3 : ℚ) / (den : ℚ) + 1 / 2⌋ = if den ≤ 2 * r3 then (1 : ℤ) else 0 := by
    have hlt1 : (r3 : ℚ) / (den : ℚ) < 1 := by
      rw [div_lt_one hden]
      exact_mod_cast hr3lt
    have hge0 : (0 : ℚ) ≤ (r3 : ℚ) / (den : ℚ) :=
      div_nonneg (Nat.cast_nonneg _) (le_of_lt hden)
    split_ifs with hc
    · rw [Int.floor_eq_iff]
      constructor
      · have : (1 : ℚ) / 2 ≤ (r3 : ℚ) / (den : ℚ) := by
          rw [div_le_div_iff₀ (by norm_num) hden]
          have : (den : ℚ) ≤ 2 * (r3 : ℚ) := by exact_mod_cast hc
          linarith
        push_cast
        linarith
      · push_cast
        linarith
    · rw [Int.floor_eq_iff]
      constructor
      · push_cast
        linarith
      · have : (r3 : ℚ) / (den : ℚ) < 1 / 2 := by
          rw [div_lt_div_iff₀ hden (by norm_num)]
          have : 2 * (r3 : ℚ) < (den : ℚ) := by
            have hc2 : 2 * r3 < den := by omega
            exact_mod_cast hc2
          linarith
        push_cast
        linarith
  have hKZ : ((K : ℕ) : ℚ) = (((K : ℕ) : ℤ) : ℚ) := by push_cast; ring
  have hfloor : ⌊|q| * 10 ^ p + 1 / 2⌋ = (K : ℤ) + (if den ≤ 2 * r3 then (1 : ℤ) else 0) := by
    rw [hmag, add_assoc, hKZ, Int.floor_int_add, hfrac]
  rw [hfloor]
  simp only [ratRound]
  rw [← hnAbs, ← hden2, ← hK, ← hr3]
  split_ifs with hc <;> push_cast <;> ring

/-- `digitsVal` of a string extended by zeros. -/
theorem digitsVal_append_replicate (s : List Char) (k : Nat) :
    digitsVal (s ++ List.replicate k '0') = digitsVal s * 10 ^ k := by
  have haux : ∀ (k : Nat) (a : Nat),
      List.foldl (fun acc ch => acc * 10 + (ch.toNat - 48)) a (List.replicate k '0')
        = a * 10 ^ k := by
    intro k
    induction k with
    | zero => intro a; simp
    | succ k ih =>
      intro a
      simp only [List.replicate_succ, List.foldl_cons]
      rw [show ('0'.toNat - 48) = 0 from rfl, Nat.add_zero, ih, pow_succ]
      ring
  simp only [digitsVal, List.foldl_append]
  exact haux k _

/-- Evaluation of `ratSetString` on an unsigned integer literal. -/
theorem ratSetString_eval_int {s : List Char} (hne : s ≠ [])
    (hd : ∀ ch ∈ s, ch.isDigit = true) :
    ratSetString s = some ((digitsVal s : ℚ)) := by
  rcases s with _ | ⟨c, t⟩
  · exact absurd rfl hne
  have hc := isDigit_facts (hd c (by simp))
  have hdot : '.' ∉ c :: t := fun hm => (isDigit_facts (hd _ hm)).1 rfl
  simp only [ratSetString, List.headI]
  rw [if_neg hc.2.2.1, if_neg (by push_neg; exact ⟨hc.2.2.1, hc.2.2.2.1⟩)]
  rw [splitOnChar_not_mem hdot]
  dsimp only
  rw [if_pos ⟨hne, List.all_eq_true.mpr hd⟩]
  rw [one_mul]

/-- Evaluation of `ratSetString` on a negated integer literal. -/
theorem ratSetString_eval_int_neg {s : List Char} (hne : s ≠ [])
    (hd : ∀ ch ∈ s, ch.isDigit = true) :
    ratSetString ('-' :: s) = some (-(digitsVal s : ℚ)) := by
  rcases s with _ | ⟨c, t⟩
  · exact absurd rfl hne
  have hdot : '.' ∉ c :: t := fun hm => (isDigit_facts (hd _ hm)).1 rfl
  simp only [ratSetString, List.headI, List.tail, true_or, if_true]
  norm_num
  rw [splitOnChar_not_mem hdot]
  dsimp only
  rw [if_pos ⟨hne, hd⟩]
  try ring_nf

/-- Evaluation of `ratSetString` on an unsigned decimal literal. -/
theorem ratSetString_eval_frac {ip fp : List Char} (hip : ip ≠ []) (hfp : fp ≠ [])
    (hipd : ∀ ch ∈ ip, ch.isDigit = true) (hfpd : ∀ ch ∈ fp, ch.isDigit = true) :
    ratSetString (ip ++ '.' :: fp) = some ((digitsVal ip : ℚ)
      + (digitsVal fp : ℚ) / 10 ^ fp.length) := by
  rcases ip with _ | ⟨c, t⟩
  · exact absurd rfl hip
  have hc := isDigit_facts (hipd c (by simp))
  have hdotip : '.' ∉ c :: t := fun hm => (isDigit_facts (hipd _ hm)).1 rfl
  have hdotfp : '.' ∉ fp := fun hm => (isDigit_facts (hfpd _ hm)).1 rfl
  simp only [ratSetString, List.cons_append, List.headI]
  rw [if_neg hc.2.2.1, if_neg (by push_neg; exact ⟨hc.2.2.1, hc.2.2.2.1⟩)]
  rw [show (c :: (t ++ '.' :: fp)) = (c :: t) ++ '.' :: fp from rfl]
  rw [splitOnChar_append fp hdotip, splitOnChar_not_mem hdotfp]
  dsimp only
  rw [if_pos ⟨hip, hfp, List.all_eq_true.mpr hipd, List.all_eq_true.mpr hfpd⟩]
  rw [one_mul]

/-- Evaluation of `ratSetString` on a negated decimal literal. -/
theorem ratSetString_eval_frac_neg {ip fp : List Char} (hip : ip ≠ []) (hfp : fp ≠ [])
    (hipd : ∀ ch ∈ ip, ch.isDigit = true) (hfpd : ∀ ch ∈ fp, ch.isDigit = true) :
    ratSetString ('-' :: (ip ++ '.' :: fp)) = some (-((digitsVal ip : ℚ)
      + (digitsVal fp : ℚ) / 10 ^ fp.length)) := by
  rcases ip with _ | ⟨c, t⟩
  · exact absurd rfl hip
  have hdotip : '.' ∉ c :: t := fun hm => (isDigit_facts (hipd _ hm)).1 rfl
  have hdotfp : '.' ∉ fp := fun hm => (isDigit_facts (hfpd _ hm)).1 rfl
  simp only [ratSetString, List.cons_append, List.headI, List.tail, true_or, if_true]
  norm_num
  rw [show (c :: (t ++ '.' :: fp)) = (c :: t) ++ '.' :: fp from rfl]
  rw [splitOnChar_append fp hdotip, splitOnChar_not_mem hdotfp]
  dsimp only
  rw [if_pos ⟨hip, hfp, hipd, hfpd⟩]
  try ring_nf

/-- `rnd` through the `ratRound` magnitude and the rendered sign. -/
theorem rnd_eq_signed (q : ℚ) (p : Nat) :
    rnd p q = (if q < 0 then -1 else 1) * ((ratRound q p : ℕ) : ℚ) / 10 ^ p := by
  have hb := ratRound_eq_floor q p
  rw [rnd]
  split_ifs with hq
  · rw [← hb]; push_cast; ring
  · rw [← hb]; push_cast; ring

/-- Values that need at most `p` decimal digits are fixed by `rnd p`. -/
theorem rnd_exact {q : ℚ} {p : Nat} {z : ℤ} (hz : q * 10 ^ p = (z : ℚ)) :
    rnd p q = q := by
  have hpow : (0 : ℚ) < 10 ^ p := by positivity
  have habs : |q| * 10 ^ p = ((|z| : ℤ) : ℚ) := by
    rw [← abs_of_pos hpow, ← abs_mul, hz, Int.cast_abs]
  have hfl : ⌊|q| * 10 ^ p + 1 / 2⌋ = |z| := by
    rw [habs, add_comm, Int.floor_add_int]
    norm_num
  rw [rnd, hfl]
  split_ifs with hq
  · have hzneg : (z : ℚ) ≤ 0 := by
      rw [← hz]
      exact mul_nonpos_of_nonpos_of_nonneg (le_of_lt hq) (le_of_lt hpow)
    have hzneg2 : z ≤ 0 := by exact_mod_cast hzneg
    rw [abs_of_nonpos hzneg2]
    push_cast
    rw [← hz]
    field_simp
  · have hzpos : (0 : ℚ) ≤ (z : ℚ) := by
      push_neg at hq
      rw [← hz]
      exact mul_nonneg hq (le_of_lt hpow)
    have hzpos2 : 0 ≤ z := by exact_mod_cast hzpos
    rw [abs_of_nonneg hzpos2]
    rw [← hz]
    field_simp

/-- Parsing a rendered `"<number> <asset>"` string: the asset code is
recovered verbatim and the number handed to `ratSetString`; the
precision registry is untouched when no overlong fraction appears. -/
theorem parseAmount_render {reg : Asset → Option Nat} {A : Amount} {s0 : List Char}
    {v : ℚ}
    (hne : A.asset.data ≠ [])
    (hws : ∀ ch ∈ A.asset.data, ch.isWhitespace = false)
    (hs0ne : s0 ≠ []) (hs0head : s0.headI.isWhitespace = false)
    (hs0nospace : ' ' ∉ s0)
    (hv : ratSetString s0 = some v)
    (hfr : ∀ ip frac rest, splitOnChar '.' s0 = ip :: frac :: rest →
      frac.length ≤ precisionOf reg A.asset) :
    parseAmount reg (s0 ++ ' ' :: A.asset.data) = some (⟨A.asset, v⟩, reg) := by
  rcases s0 with _ | ⟨c, s0t⟩
  · exact absurd rfl hs0ne
  have hcws : c.isWhitespace = false := hs0head
  have hadlast := List.dropLast_append_getLast hne
  have hzws : (A.asset.data.getLast hne).isWhitespace = false :=
    hws _ (List.getLast_mem hne)
  have hshape : (c :: s0t) ++ ' ' :: A.asset.data =
      c :: ((s0t ++ ' ' :: A.asset.data.dropLast) ++ [A.asset.data.getLast hne]) := by
    conv_lhs => rw [← hadlast]
    simp
  have htrim : trimSpace ((c :: s0t) ++ ' ' :: A.asset.data) =
      (c :: s0t) ++ ' ' :: A.asset.data := by
    rw [hshape, trimSpace_id hcws hzws]
  have hnospace_ad : ' ' ∉ A.asset.data := fun hm => by simpa using hws ' ' hm
  have hsplitsp : splitOnChar ' ' ((c :: s0t) ++ ' ' :: A.asset.data) =
      [c :: s0t, A.asset.data] := by
    rw [splitOnChar_append _ hs0nospace, splitOnChar_not_mem hnospace_ad]
  simp only [parseAmount, htrim, hsplitsp]
  rw [hv]
  have hasset : (⟨A.asset.data⟩ : Asset) = A.asset := rfl
  rcases hsp : splitOnChar '.' (c :: s0t) with _ | ⟨ip, _ | ⟨frac, rest⟩⟩
  · simp [hasset]
  · simp [hasset]
  · have hle := hfr ip frac rest hsp
    simp [hasset, if_neg (not_lt_of_le hle)]

/-- The sign-magnitude number rendered by `floatString`, with no
fraction part surviving, parses back to the rounded value. -/
theorem ratSetString_whole (q : ℚ) (p : Nat)
    (hmod : ratRound q p % 10 ^ p = 0) :
    ratSetString ((if q < 0 then ['-'] else []) ++ natChars (ratRound q p / 10 ^ p))
      = some (rnd p q) := by
  set N := ratRound q p with hN
  have hIne : natChars (N / 10 ^ p) ≠ [] := natChars_ne_nil _
  have hId : ∀ ch ∈ natChars (N / 10 ^ p), ch.isDigit = true := fun ch hm =>
    natChars_digits hm
  have hdvd : 10 ^ p ∣ N := Nat.dvd_of_mod_eq_zero hmod
  have hval : ((digitsVal (natChars (N / 10 ^ p)) : ℕ) : ℚ) = (N : ℚ) / 10 ^ p := by
    rw [digitsVal_natChars]
    rw [Nat.cast_div hdvd (by positivity)]
    push_cast
    ring
  split_ifs with hq
  · rw [List.singleton_append, ratSetString_eval_int_neg hIne hId, hval,
      rnd_eq_signed q p, if_pos hq, ← hN]
    congr 1
    ring
  · rw [List.nil_append, ratSetString_eval_int hIne hId, hval,
      rnd_eq_signed q p, if_neg hq, ← hN]
    congr 1
    ring

/-- The sign-magnitude number rendered by `floatString` with a trimmed
fraction part parses back to the rounded value. -/
theorem ratSetString_withFrac (q : ℚ) (p : Nat) (fp : List Char) (k : Nat)
    (hk : fp.length + k = p)
    (hfpne : fp ≠ [])
    (hfpd : ∀ ch ∈ fp, ch.isDigit = true)
    (hvF : digitsVal fp * 10 ^ k = ratRound q p % 10 ^ p) :
    ratSetString ((if q < 0 then ['-'] else []) ++
        (natChars (ratRound q p / 10 ^ p) ++ '.' :: fp))
      = some (rnd p q) := by
  set N := ratRound q p with hN
  have hIne : natChars (N / 10 ^ p) ≠ [] := natChars_ne_nil _
  have hId : ∀ ch ∈ natChars (N / 10 ^ p), ch.isDigit = true := fun ch hm =>
    natChars_digits hm
  have hval : ((digitsVal (natChars (N / 10 ^ p)) : ℕ) : ℚ)
      + ((digitsVal fp : ℕ) : ℚ) / 10 ^ fp.length = (N : ℚ) / 10 ^ p := by
    rw [digitsVal_natChars]
    have hsplit10 : (10 : ℚ) ^ p = 10 ^ fp.length * 10 ^ k := by
      rw [← pow_add, hk]
    have hNdm : 10 ^ p * (N / 10 ^ p) + digitsVal fp * 10 ^ k = N := by
      rw [hvF]
      exact Nat.div_add_mod N (10 ^ p)
    have hcast : (10 : ℚ) ^ p * ((N / 10 ^ p : ℕ) : ℚ)
        + ((digitsVal fp : ℕ) : ℚ) * 10 ^ k = (N : ℚ) := by
      exact_mod_cast hNdm
    have hp0 : (10 : ℚ) ^ p ≠ 0 := by positivity
    have hl0 : (10 : ℚ) ^ fp.length ≠ 0 := by positivity
    rw [eq_div_iff hp0, ← hcast, hsplit10]
    field_simp
    ring
  split_ifs with hq
  · rw [List.singleton_append, ratSetString_eval_frac_neg hIne hfpne hId hfpd, hval,
      rnd_eq_signed q p, if_pos hq, ← hN]
    congr 1
    ring
  · rw [List.nil_append, ratSetString_eval_frac hIne hfpne hId hfpd, hval,
      rnd_eq_signed q p, if_neg hq, ← hN]
    congr 1
    ring

/-- Full render-parse round trip: parsing `A.String()` succeeds, returns
the asset verbatim, the value rounded to the learned precision, and an
unchanged precision registry. -/
theorem parseAmount_amountString (reg : Asset → Option Nat) (A : Amount)
    (hne : A.asset.data ≠ [])
    (hws : ∀ ch ∈ A.asset.data, ch.isWhitespace = false) :
    parseAmount reg (amountString reg A)
      = some (⟨A.asset, rnd (precisionOf reg A.asset) A.rat⟩, reg) := by
  set p := precisionOf reg A.asset with hp2
  set N := ratRound A.rat p with hN2
  set sgn : List Char := if A.rat < 0 then ['-'] else [] with hsgn
  set I := natChars (N / 10 ^ p) with hI2
  set F0 := natChars (N % 10 ^ p) with hF02
  set F := List.replicate (p - F0.length) '0' ++ F0 with hF2
  have hIne : I ≠ [] := natChars_ne_nil _
  have hId : ∀ ch ∈ I, ch.isDigit = true := fun ch hm => natChars_digits hm
  have hFd : ∀ ch ∈ F, ch.isDigit = true := by
    intro ch hm
    rcases List.mem_append.mp hm with hm | hm
    · rw [List.eq_of_mem_replicate hm]; decide
    · exact natChars_digits hm
  have hsgnI : ∀ ch ∈ sgn ++ I, ch = '-' ∨ ch.isDigit = true := by
    intro ch hm
    rcases List.mem_append.mp hm with hm | hm
    · rw [hsgn] at hm
      split_ifs at hm
      · simp at hm; exact Or.inl hm
      · simp at hm
    · exact Or.inr (hId ch hm)
  have hsgnI_ne : sgn ++ I ≠ [] := by
    intro h
    exact hIne (List.append_eq_nil.mp h).2
  obtain ⟨c, t, hct⟩ : ∃ c t, sgn ++ I = c :: t := by
    rcases hx : sgn ++ I with _ | ⟨c, t⟩
    · exact absurd hx hsgnI_ne
    · exact ⟨c, t, rfl⟩
  have hchead : c.isWhitespace = false := by
    rcases hsgnI c (hct ▸ List.mem_cons_self c t) with h | h
    · rw [h]; decide
    · exact (isDigit_facts h).2.2.2.2
  have hdotI : '.' ∉ sgn ++ I := by
    intro hm
    rcases hsgnI '.' hm with h | h
    · exact absurd h (by decide)
    · exact (isDigit_facts h).1 rfl
  have hspI : ' ' ∉ sgn ++ I := by
    intro hm
    rcases hsgnI ' ' hm with h | h
    · exact absurd h (by decide)
    · exact (isDigit_facts h).2.1 rfl
  have hdotF : '.' ∉ F := fun hm => (isDigit_facts (hFd '.' hm)).1 rfl
  rcases Nat.eq_zero_or_pos p with hp0 | hp
  · -- precision zero: no decimal point is rendered
    have hfs : floatString reg A = sgn ++ I := by
      simp only [floatString, ← hp2, ← hN2, ← hsgn, ← hI2,
        if_neg (by omega : ¬ 0 < p), List.append_nil]
    have hsplitf : splitOnChar '.' (sgn ++ I) = [sgn ++ I] :=
      splitOnChar_not_mem hdotI
    have hAS : amountString reg A = (sgn ++ I) ++ ' ' :: A.asset.data := by
      simp only [amountString, hfs, hsplitf, joinDot]
    have hmod : N % 10 ^ p = 0 := by rw [hp0, pow_zero]; exact Nat.mod_one N
    have hv : ratSetString (sgn ++ I) = some (rnd p A.rat) := by
      have h := ratSetString_whole A.rat p hmod
      rw [← hN2, ← hsgn, ← hI2] at h
      exact h
    have hfr : ∀ ip frac rest, splitOnChar '.' (sgn ++ I) = ip :: frac :: rest →
        frac.length ≤ precisionOf reg A.asset := by
      intro ip frac rest h
      rw [hsplitf] at h
      simp at h
    rw [hAS]
    have hhead : (sgn ++ I).headI.isWhitespace = false := by rw [hct]; exact hchead
    exact parseAmount_render hne hws hsgnI_ne hhead hspI hv hfr
  · -- positive precision: a decimal point and p fraction digits
    have hpow : 0 < 10 ^ p := by positivity
    have hmodlt : N % 10 ^ p < 10 ^ p := Nat.mod_lt _ hpow
    have hF0len : F0.length ≤ p := natChars_length_le hp hmodlt
    have hFlen : F.length = p := by
      rw [hF2, List.length_append, List.length_replicate]
      omega
    have hvalF : digitsVal F = N % 10 ^ p := by
      rw [hF2, hF02, digitsVal_replicate_append, digitsVal_natChars]
    have hfs : floatString reg A = (sgn ++ I) ++ '.' :: F := by
      simp only [floatString, ← hp2, ← hN2, ← hsgn, ← hI2, ← hF02, ← hF2,
        if_pos hp, List.append_assoc]
    have hsplitf : splitOnChar '.' ((sgn ++ I) ++ '.' :: F) = [sgn ++ I, F] := by
      rw [splitOnChar_append F hdotI, splitOnChar_not_mem hdotF]
    obtain ⟨k, hFdec⟩ := trimRightZeros_spec F
    by_cases hfp : trimRightZeros F = []
    · -- the whole fraction was zeros and is trimmed away
      have hF_rep : F = List.replicate k '0' := by
        conv_lhs => rw [hFdec]
        rw [hfp, List.nil_append]
      have hmod : N % 10 ^ p = 0 := by
        rw [← hvalF, hF_rep, digitsVal_replicate]
      have hAS : amountString reg A = (sgn ++ I) ++ ' ' :: A.asset.data := by
        simp only [amountString, hfs, hsplitf]
        rw [if_pos hfp]
        simp only [joinDot]
      have hv : ratSetString (sgn ++ I) = some (rnd p A.rat) := by
        have h := ratSetString_whole A.rat p hmod
        rw [← hN2, ← hsgn, ← hI2] at h
        exact h
      have hfr : ∀ ip frac rest, splitOnChar '.' (sgn ++ I) = ip :: frac :: rest →
          frac.length ≤ precisionOf reg A.asset := by
        intro ip frac rest h
        rw [splitOnChar_not_mem hdotI] at h
        simp at h
      rw [hAS]
      have hhead : (sgn ++ I).headI.isWhitespace = false := by rw [hct]; exact hchead
      exact parseAmount_render hne hws hsgnI_ne hhead hspI hv hfr
    · -- a nonempty trimmed fraction remains
      set fp' := trimRightZeros F with hfp2
      have hfpmem : ∀ ch ∈ fp', ch ∈ F := by
        intro ch hm
        rw [hFdec]
        exact List.mem_append_left _ hm
      have hfpd : ∀ ch ∈ fp', ch.isDigit = true := fun ch hm => hFd ch (hfpmem ch hm)
      have hk : fp'.length + k = p := by
        have h1 : (fp' ++ List.replicate k '0').length = fp'.length + k := by simp
        have h2 : F.length = p := hFlen
        rw [hFdec] at h2
        rw [h1] at h2
        exact h2
      have hvF : digitsVal fp' * 10 ^ k = N % 10 ^ p := by
        rw [← hvalF]
        conv_rhs => rw [hFdec]
        rw [digitsVal_append_replicate]
      have hAS : amountString reg A =
          ((sgn ++ I) ++ '.' :: fp') ++ ' ' :: A.asset.data := by
        simp only [amountString, hfs, hsplitf]
        rw [if_neg hfp]
        simp only [joinDot]
      have hdotfp : '.' ∉ fp' := fun hm => (isDigit_facts (hfpd '.' hm)).1 rfl
      have hspfp : ' ' ∉ fp' := fun hm => (isDigit_facts (hfpd ' ' hm)).2.1 rfl
      have hs0ne : (sgn ++ I) ++ '.' :: fp' ≠ [] := by
        intro h
        exact absurd (List.append_eq_nil.mp h).2 (by simp)
      have hhead : ((sgn ++ I) ++ '.' :: fp').headI.isWhitespace = false := by
        rw [hct]
        exact hchead
      have hsp0 : ' ' ∉ (sgn ++ I) ++ '.' :: fp' := by
        intro hm
        rcases List.mem_append.mp hm with hm | hm
        · exact hspI hm
        · rcases List.mem_cons.mp hm with hm | hm
          · exact absurd hm (by decide)
          · exact hspfp hm
      have hv : ratSetString ((sgn ++ I) ++ '.' :: fp') = some (rnd p A.rat) := by
        have h := ratSetString_withFrac A.rat p fp' k hk hfp hfpd hvF
        rw [← hN2, ← hsgn, ← hI2, ← List.append_assoc] at h
        exact h
      have hfr : ∀ ip frac rest,
          splitOnChar '.' ((sgn ++ I) ++ '.' :: fp') = ip :: frac :: rest →
          frac.length ≤ precisionOf reg A.asset := by
        intro ip frac rest h
        rw [splitOnChar_append _ hdotI, splitOnChar_not_mem hdotfp] at h
        injection h with h1 h2
        injection h2 with h3 h4
        rw [← h3, ← hp2]
        omega
      rw [hAS]
      exact parseAmount_render hne hws hs0ne hhead hsp0 hv hfr

/-- C9 counterexample: the round-trip claim fails as stated.  The
`Amount` with asset code `"X Y"` (non-empty, as the claim requires) and
value 1 renders to `"1 X Y"`, which parses successfully - but to the
asset `"X"`, not `"X Y"`, because `parseAmount` splits the input on
every single space and takes only the second field as the asset. -/
theorem claim_C9_counterexample :
    parseAmount (fun _ => none) (amountString (fun _ => none) ⟨"X Y", 1⟩)
      = some (⟨"X", 1⟩, fun _ => none) ∧ ("X" : String) ≠ "X Y" := by
  constructor
  · have hrr : ratRound 1 6 = 1000000 := by decide
    have hd1 : Nat.digits 10 1 = [1] := by norm_num [Nat.digits_def']
    have hnc1 : natChars 1 = ['1'] := by
      have hdc : digitChar 1 = '1' := by decide
      simp [natChars, hd1, hdc]
    have hnc0 : natChars 0 = ['0'] := by decide
    have hrep : List.replicate 5 '0' = ['0', '0', '0', '0', '0'] := by decide
    have hfs : floatString (fun _ => none) ⟨"X Y", 1⟩ =
        ['1', '.', '0', '0', '0', '0', '0', '0'] := by
      norm_num [floatString, precisionOf, hrr, hnc1, hnc0, hrep]
    have hspdot : splitOnChar '.' ['1', '.', '0', '0', '0', '0', '0', '0']
        = [['1'], ['0', '0', '0', '0', '0', '0']] := by decide
    have htrz : trimRightZeros ['0', '0', '0', '0', '0', '0'] = [] := by decide
    have hdata : ("X Y" : String).data = ['X', ' ', 'Y'] := rfl
    have hAS : amountString (fun _ => none) ⟨"X Y", 1⟩ =
        ['1', ' ', 'X', ' ', 'Y'] := by
      simp only [amountString, hfs, hspdot, htrz]
      norm_num [joinDot, hdata]
    have htr : trimSpace ['1', ' ', 'X', ' ', 'Y'] = ['1', ' ', 'X', ' ', 'Y'] := by
      decide
    have hsp : splitOnChar ' ' ['1', ' ', 'X', ' ', 'Y'] = [['1'], ['X'], ['Y']] := by
      decide
    have hspdot1 : splitOnChar '.' ['1'] = [['1']] := by decide
    have hrs : ratSetString ['1'] = some 1 := by
      have h := @ratSetString_eval_int ['1'] (by decide) (by decide)
      have hdv : digitsVal ['1'] = 1 := by decide
      rw [hdv] at h
      simpa using h
    rw [hAS]
    simp only [parseAmount, htr, hsp]
    rw [hrs]
    simp only [hspdot1]
  · decide

/-- C9 (amended): for every `Amount` whose asset code is non-empty and
contains no whitespace character, parsing the string produced by
`Amount.String()` succeeds and yields an `Amount` with the same asset
code, the value rounded (half away from zero) to the asset's learned
display precision, and an unchanged precision registry; and whenever the
value already has at most that many decimal digits the rounded value is
the value itself, so the round trip is exact. -/
theorem claim_C9_roundtrip_rounded (reg : Asset → Option Nat) (A : Amount)
    (hne : A.asset.data ≠ [])
    (hws : ∀ ch ∈ A.asset.data, ch.isWhitespace = false) :
    parseAmount reg (amountString reg A)
      = some (⟨A.asset, rnd (precisionOf reg A.asset) A.rat⟩, reg) ∧
    (∀ z : ℤ, A.rat * 10 ^ precisionOf reg A.asset = (z : ℚ) →
      rnd (precisionOf reg A.asset) A.rat = A.rat) :=
  ⟨parseAmount_amountString reg A hne hws, fun _ hz => rnd_exact hz⟩

/-- Witness: the amended C9 theorem applied to the concrete amount
`25/2 AB` with an empty precision registry. -/
theorem claim_C9_roundtrip_rounded_witness :
    parseAmount (fun _ => none) (amountString (fun _ => none) ⟨"AB", 25/2⟩)
      = some (⟨"AB", rnd (precisionOf (fun _ => none) "AB") (25/2)⟩, fun _ => none) ∧
    (∀ z : ℤ, (25/2 : ℚ) * 10 ^ precisionOf (fun _ => none) ("AB" : Asset) = (z : ℚ) →
      rnd (precisionOf (fun _ => none) "AB") (25/2) = (25/2 : ℚ)) :=
  claim_C9_roundtrip_rounded (fun _ => none) ⟨"AB", 25/2⟩ (by decide) (by decide)

end Lotter
